import Mathlib

/-!
Verification development for the pto-file scanner (`parse_pto.py`) and its
web boundary (`app.py`).

The Python source is shallowly embedded: regular expressions are modeled by
explicit prefix matchers that reproduce the engine's ordered alternation and
the backtracking that is actually reachable, `finditer` by a fuel-indexed
scan loop, stateful objects by explicit record passing, and fallible code by
`Except`.  One deliberate modeling choice: the scanner stores a float member
as Python's `float(text)` and re-renders it with `str(...)`; this development
carries the matched source text instead (constructor `PtoValue.vf`).  The two
agree exactly on float tokens with `str(float(t)) = t`, and the round-trip
property enforces that regime explicitly: its canonicity test `canonicalTok`
requires every matched `float_value` capture to pass `floatTokCanonB`, a
conservative decidable test for `str(float(t)) = t`, so tokens such as
`1.50` or `+1.5` (which the program re-renders as `1.5`) fall outside every
theorem that renders a float member.

Strings are modeled as `List Char` so that scanning is ordinary structural
recursion.
-/

namespace ParsePto

/-- Python's `\s` class (` `, TAB, LF, CR, VT, FF). -/
def isPySpace (c : Char) : Bool :=
  c == ' ' || c == '\t' || c == '\n' || c == '\r' || c == '\x0b' || c == '\x0c'

/-- Python's `\d` class restricted to ASCII, as produced by the scanner's REs. -/
def isPyDigit (c : Char) : Bool :=
  '0' ≤ c && c ≤ '9'

/-- `[A-Za-z]`, the single-letter qualifier class of `pto_member_re`. -/
def isPyLetter (c : Char) : Bool :=
  ('a' ≤ c && c ≤ 'z') || ('A' ≤ c && c ≤ 'Z')

/-- Python 2 `string.letters` in the C locale: the default
`accepted_line_headers` of `pto_scan.__init__`. -/
def string_letters : List Char :=
  "abcdefghijklmnopqrstuvwxyzABCDEFGHIJKLMNOPQRSTUVWXYZ".data

/-- `standard_headers = 'pvimozck'` from the source. -/
def standard_headers : List Char :=
  "pvimozck".data

/-- The `[.]\d*` tail after a matched digit run, used by the first branch of
the float body. -/
def dotTail (cs : List Char) : Option (List Char × List Char) :=
  match cs with
  | [] => none
  | c :: cs4 =>
    if c == '.' then some ('.' :: cs4.takeWhile isPyDigit, cs4.dropWhile isPyDigit)
    else none

/-- The sign-free body of the `float_value` alternative,
`(\d+[.]\d*)|([.]\d+)` with the engine's branch order: when the input starts
with a dot only the second branch can match; when it starts with a digit
only the first can; otherwise neither. -/
def floatBody (cs : List Char) : Option (List Char × List Char) :=
  match cs with
  | [] => none
  | c :: cs3 =>
    if c == '.' then
      if (cs3.takeWhile isPyDigit).isEmpty then none
      else some ('.' :: cs3.takeWhile isPyDigit, cs3.dropWhile isPyDigit)
    else
      if ((c :: cs3).takeWhile isPyDigit).isEmpty then none
      else
        (dotTail ((c :: cs3).dropWhile isPyDigit)).map
          (fun p => ((c :: cs3).takeWhile isPyDigit ++ p.1, p.2))

/-- The `float_value` alternative `[+-]?((\d+[.]\d*)|([.]\d+))`.  (With a
sign present, the signless retry the optional `[+-]?` allows would start at
the sign character and fail anyway.) -/
def matchFloat (cs : List Char) : Option (List Char × List Char) :=
  match cs with
  | [] => none
  | c :: cs1 =>
    if c == '+' then (floatBody cs1).map (fun p => ('+' :: p.1, p.2))
    else if c == '-' then (floatBody cs1).map (fun p => ('-' :: p.1, p.2))
    else floatBody (c :: cs1)

/-- `\d+` : a nonempty digit run. -/
def matchUInt (cs : List Char) : Option (List Char × List Char) :=
  if (cs.takeWhile isPyDigit).isEmpty then none
  else some (cs.takeWhile isPyDigit, cs.dropWhile isPyDigit)

/-- `[+-]?\d+` : the `integral_value` alternative, also used by the four
rectangle components. -/
def matchSignedInt (cs : List Char) : Option (List Char × List Char) :=
  match cs with
  | [] => none
  | c :: cs1 =>
    if c == '+' then (matchUInt cs1).map (fun p => ('+' :: p.1, p.2))
    else if c == '-' then (matchUInt cs1).map (fun p => ('-' :: p.1, p.2))
    else matchUInt (c :: cs1)

/-- The `rectangle_value` alternative: four signed integers joined by commas.
Returns the four component captures (`left`, `right`, `top`, `bottom`),
the full matched text, and the rest. -/
def matchRect (cs : List Char) :
    Option ((List Char × List Char × List Char × List Char) × List Char × List Char) :=
  match matchSignedInt cs with
  | none => none
  | some (l, cs1) =>
    match cs1 with
    | [] => none
    | c1 :: cs2 =>
      if c1 == ',' then
        match matchSignedInt cs2 with
        | none => none
        | some (r, cs3) =>
          match cs3 with
          | [] => none
          | c2 :: cs4 =>
            if c2 == ',' then
              match matchSignedInt cs4 with
              | none => none
              | some (t, cs5) =>
                match cs5 with
                | [] => none
                | c3 :: cs6 =>
                  if c3 == ',' then
                    match matchSignedInt cs6 with
                    | none => none
                    | some (b, cs7) =>
                      some ((l, r, t, b), l ++ ',' :: (r ++ ',' :: (t ++ ',' :: b)), cs7)
                  else none
            else none
      else none

/-- The `backref_value` alternative `=\d+`. -/
def matchBackref (cs : List Char) : Option (List Char × List Char) :=
  match cs with
  | [] => none
  | c :: cs1 =>
    if c == '=' then (matchUInt cs1).map (fun p => ('=' :: p.1, p.2))
    else none

/-- The `string_value` alternative `"([^"]|(\\"))*"`.  Because `[^"]` is tried
first and already matches a lone backslash, and the group cannot consume a
quote by any branch, the greedy closure always stops at the first `"` after
the opening one; the escaped-quote branch is unreachable.  The match is
therefore: opening quote, maximal quote-free run, closing quote. -/
def matchStringVal (cs : List Char) : Option (List Char × List Char) :=
  match cs with
  | [] => none
  | c :: cs1 =>
    if c == '"' then
      match cs1.dropWhile (fun x => x != '"') with
      | [] => none
      | _ :: rest => some ('"' :: (cs1.takeWhile (fun x => x != '"') ++ ['"']), rest)
    else none

/-- The `word_value` alternative `\S+`. -/
def matchWord (cs : List Char) : Option (List Char × List Char) :=
  if (cs.takeWhile (fun c => !isPySpace c)).isEmpty then none
  else some (cs.takeWhile (fun c => !isPySpace c), cs.dropWhile (fun c => !isPySpace c))

/-- Named captures of `pto_member_re`'s `member_text` group; `none` marks a
group that did not participate in the match, as in Python's `m.group(...)`. -/
structure MemberGroups where
  member_text : List Char
  float_value : Option (List Char)
  rectangle_value : Option (List Char)
  left : Option (List Char)
  right : Option (List Char)
  top : Option (List Char)
  bottom : Option (List Char)
  integral_value : Option (List Char)
  backref_value : Option (List Char)
  string_value : Option (List Char)
  word_value : Option (List Char)
deriving DecidableEq, Repr

/-- All groups unset. -/
def emptyGroups (t : List Char) : MemberGroups :=
  ⟨t, none, none, none, none, none, none, none, none, none, none⟩

/-- The `member_text` alternation of `pto_member_re`: the six value grammars
tried in the source's order (float, rectangle, int, backref, string, word),
committing to the first alternative that matches a prefix. -/
def memberTextMatch (cs : List Char) : Option (MemberGroups × List Char) :=
  match matchFloat cs with
  | some (t, rest) => some ({ emptyGroups t with float_value := some t }, rest)
  | none =>
  match matchRect cs with
  | some ((l, r, tp, b), t, rest) =>
    some ({ emptyGroups t with
            rectangle_value := some t
            left := some l
            right := some r
            top := some tp
            bottom := some b }, rest)
  | none =>
  match matchSignedInt cs with
  | some (t, rest) => some ({ emptyGroups t with integral_value := some t }, rest)
  | none =>
  match matchBackref cs with
  | some (t, rest) => some ({ emptyGroups t with backref_value := some t }, rest)
  | none =>
  match matchStringVal cs with
  | some (t, rest) => some ({ emptyGroups t with string_value := some t }, rest)
  | none =>
  match matchWord cs with
  | some (t, rest) => some ({ emptyGroups t with word_value := some t }, rest)
  | none => none

/-- Greedy `[XYZ]*` tail of the `T[xyzrs][XYZ]*` qualifier, with the engine's
backtracking order: candidates from the longest captured run down to none. -/
def tCands (base : List Char) : List Char → List (List Char × List Char)
  | [] => [(base, [])]
  | c :: cs =>
    if c == 'X' || c == 'Y' || c == 'Z' then
      tCands (base ++ [c]) cs ++ [(base, c :: cs)]
    else
      [(base, c :: cs)]

/-- The `member_qualifier` alternation, as the ordered list of
(qualifier capture, rest) candidates the engine attempts: `R[a-e]`,
`V[a-dxym]`, `T[xyzrs][XYZ]*` (longest run first), `E[rb]`, `Eev`, then any
single letter.  The engine retries later candidates when `member_text`
fails on the earlier ones. -/
def qualCandidates (cs : List Char) : List (List Char × List Char) :=
  match cs with
  | [] => []
  | a :: tok1 =>
    (match tok1 with
     | [] => []
     | b :: r =>
       (if a == 'R' && (b == 'a' || b == 'b' || b == 'c' || b == 'd' || b == 'e') then
          [([a, b], r)]
        else []) ++
       (if a == 'V' &&
           (b == 'a' || b == 'b' || b == 'c' || b == 'd' || b == 'x' || b == 'y' || b == 'm')
        then [([a, b], r)] else []) ++
       (if a == 'T' && (b == 'x' || b == 'y' || b == 'z' || b == 'r' || b == 's') then
          tCands [a, b] r
        else []) ++
       (if a == 'E' && (b == 'r' || b == 'b') then [([a, b], r)] else []) ++
       (match r with
        | v :: r2 => if a == 'E' && b == 'e' && v == 'v' then [([a, b, v], r2)] else []
        | [] => [])) ++
    (if isPyLetter a then [([a], tok1)] else [])

/-- Try `member_text` on each qualifier candidate in order. -/
def firstTextMatch : List (List Char × List Char) → Option (List Char × MemberGroups × List Char)
  | [] => none
  | (q, r) :: rest =>
    match memberTextMatch r with
    | some (g, rem) => some (q, g, rem)
    | none => firstTextMatch rest

/-- One attempt of `pto_member_re` anchored at the current position:
`\s*`, then qualifier, then `member_text`. -/
def regexMatchAt (cs : List Char) : Option (List Char × MemberGroups × List Char) :=
  firstTextMatch (qualCandidates (cs.dropWhile isPySpace))

/-- Numeric value of a digit run. -/
def digitsVal (ds : List Char) : Nat :=
  ds.foldl (fun a c => 10 * a + (c.toNat - '0'.toNat)) 0

/-- Python `int(...)` on a `[+-]?\d+` token. -/
def pyInt (cs : List Char) : Int :=
  match cs with
  | '+' :: ds => (digitsVal ds : Int)
  | '-' :: ds => -(digitsVal ds : Int)
  | ds => (digitsVal ds : Int)

/-- The typed value of a member; the constructor fixes the `datatype` letter
(`f`, `i`, `r`, `b`, `s`, `w`) recorded alongside it. -/
inductive PtoValue where
  | vf (text : List Char)
  | vi (n : Int)
  | vr (l r t b : Int)
  | vb (n : Nat)
  | vs (text : List Char)
  | vw (text : List Char)
deriving DecidableEq, Repr

/-- `pto_member` from the source: qualifier (`type`), `separator`
(`""` or `"="`), raw matched `text`, a `datatype` letter and the `value`. -/
structure pto_member where
  type : List Char
  separator : List Char
  text : List Char
  datatype : Char
  value : PtoValue
deriving DecidableEq, Repr

/-- Python truthiness of an optional capture: `None` and `""` are falsy. -/
def truthy : Option (List Char) → Bool
  | none => false
  | some t => !t.isEmpty

/-- Python `sv[1:-1]`. -/
def pyUnquote (sv : List Char) : List Char :=
  (sv.drop 1).dropLast

/-- The group-inspection chain of `pto_line.__init__` (lines 405-443 of the
source): test `float_value`, `rectangle_value`, `integral_value`,
`backref_value`, `string_value`, `word_value` in order; `none` is the final
`raise SyntaxError` branch. -/
def buildMember (qual : List Char) (g : MemberGroups) : Option pto_member :=
  if truthy g.float_value then
    some ⟨qual, [], g.member_text, 'f', PtoValue.vf (g.float_value.getD [])⟩
  else if truthy g.rectangle_value then
    some ⟨qual, [], g.member_text, 'r',
      PtoValue.vr (pyInt (g.left.getD [])) (pyInt (g.right.getD []))
        (pyInt (g.top.getD [])) (pyInt (g.bottom.getD []))⟩
  else if truthy g.integral_value then
    some ⟨qual, [], g.member_text, 'i', PtoValue.vi (pyInt (g.integral_value.getD []))⟩
  else if truthy g.backref_value then
    some ⟨qual, ['='], g.member_text, 'b',
      PtoValue.vb (digitsVal ((g.backref_value.getD []).drop 1))⟩
  else if truthy g.string_value then
    some ⟨qual, [], g.member_text, 's', PtoValue.vs (pyUnquote (g.string_value.getD []))⟩
  else if truthy g.word_value then
    some ⟨qual, [], g.member_text, 'w', PtoValue.vw (g.word_value.getD [])⟩
  else none

/-- `pto_member_re.finditer` plus the member-building loop of
`pto_line.__init__`: attempt a match at the current position, on failure
advance one character; on success build the member (`.error` is the
`raise SyntaxError` branch) and continue at the match end.  Fuel-indexed;
every match consumes at least one character, so `cs.length` fuel suffices. -/
def finditerGo : Nat → List Char → Except String (List pto_member)
  | 0, _ => .ok []
  | fuel + 1, cs =>
    match regexMatchAt cs with
    | some (q, g, rest) =>
      match buildMember q g with
      | some m => (finditerGo fuel rest).map (fun ms => m :: ms)
      | none => .error "SyntaxError: something went awfully wrong..."
    | none =>
      match cs with
      | [] => .ok []
      | _ :: cs2 => finditerGo fuel cs2

/-- Member scan of the text after a line's header. -/
def finditerMembers (cs : List Char) : Except String (List pto_member) :=
  finditerGo cs.length cs

/-- `pto_line` from the source.  `members = none` is the not-recognized state
(`scan = False`); `attrs` models the attributes `make_member_access` later
sets on the line object with `setattr(line, m.type, m)` (empty until then). -/
structure pto_line where
  sourcecode : List Char
  lineno : Nat
  header : List Char
  members : Option (List pto_member)
  attrs : List (List Char × pto_member)
deriving DecidableEq, Repr

/-- `pto_line.__init__`: without `scan`, record the line opaquely; with
`scan`, run the member finditer from position `len(header)`. -/
def pto_line_init (line : List Char) (lineno : Nat) (header : List Char) (scan : Bool) :
    Except String pto_line :=
  if scan then
    (finditerMembers (line.drop header.length)).map
      (fun ms => ⟨line, lineno, header, some ms, []⟩)
  else
    .ok ⟨line, lineno, header, none, []⟩

/-- `pto_line.select`: iterate `self.members` looking for the first member
with the given tag.  On a not-recognized line `self.members` is `None`, so
the `for` loop raises `TypeError` — modeled by `.error`. -/
def pto_line_select (l : pto_line) (tag : List Char) : Except String (Option pto_member) :=
  match l.members with
  | none => .error "TypeError: NoneType object is not iterable"
  | some ms => .ok (ms.find? (fun m => m.type == tag))

/-- `pto_line.extract`: `select`, then project the value when found. -/
def pto_line_extract (l : pto_line) (tag : List Char) : Except String (Option PtoValue) :=
  (pto_line_select l tag).map (fun r => r.map (fun m => m.value))

/-- Decimal rendering of an `Int`, as Python's `str`/`%d`. -/
def pyIntRepr (n : Int) : List Char :=
  (toString n).data

/-- Python `str(value)` for the generic branch of `pto_member.__str__`
(reached with datatypes `f`, `i`, `b`, `w`; the others are rendered by the
dedicated branches).  For a float member the program prints
`str(float(text))`; this printer returns the stored text, and the one
theorem that renders a float member (the round-trip) reaches it only
through `canonicalTok`, whose `floatTokCanonB` conjunct restricts to tokens
on which the two coincide.  A rectangle prints as Python prints a
4-tuple. -/
def pyValStr : PtoValue → List Char
  | PtoValue.vf t => t
  | PtoValue.vi n => pyIntRepr n
  | PtoValue.vr l r t b =>
    '(' :: (pyIntRepr l ++ ',' :: ' ' :: (pyIntRepr r ++ ',' :: ' ' ::
      (pyIntRepr t ++ ',' :: ' ' :: (pyIntRepr b ++ [')']))))
  | PtoValue.vb n => (toString n).data
  | PtoValue.vs t => t
  | PtoValue.vw t => t

/-- `pto_member.__str__`: quoted for datatype `s`, `L,R,T,B` via `%d` for
datatype `r`, otherwise `type + separator + str(value)`.  (The `%d` branch
is only reached with a `vr` value; the scanner establishes that invariant.) -/
def memberStr (m : pto_member) : List Char :=
  if m.datatype == 's' then
    m.type ++ m.separator ++ '"' :: (pyValStr m.value ++ ['"'])
  else if m.datatype == 'r' then
    match m.value with
    | PtoValue.vr l r t b =>
      m.type ++ m.separator ++ pyIntRepr l ++ ',' :: (pyIntRepr r ++ ',' ::
        (pyIntRepr t ++ ',' :: pyIntRepr b))
    | _ => m.type ++ m.separator
  else
    m.type ++ m.separator ++ pyValStr m.value

/-- Python truthiness of `self.members` (`None` and `[]` are falsy). -/
def membersTruthy (l : pto_line) : Bool :=
  match l.members with
  | some (_ :: _) => true
  | _ => false

/-- `pto_line.__str__`: the header followed by `' ' + str(m)` for each
member (skipped entirely when `self.members` is falsy). -/
def pto_line_str (l : pto_line) : List Char :=
  l.header ++
    (if membersTruthy l then
      ((l.members.getD []).map (fun m => ' ' :: memberStr m)).foldr (· ++ ·) []
    else [])

/-- `pto_line.pto`: structural re-render plus newline when members are
truthy; otherwise the verbatim source line when auxiliary output is on. -/
def pto_line_pto (l : pto_line) (with_aux : Bool) : List Char :=
  if membersTruthy l then pto_line_str l ++ ['\n']
  else if with_aux then l.sourcecode
  else []

/-- The value alternation shared by `hugin_key_value_re` and
`imgfile_data_re`: float, int, string, word — no rectangle, no backref. -/
def memberTextMatch4 (cs : List Char) : Option (MemberGroups × List Char) :=
  match matchFloat cs with
  | some (t, rest) => some ({ emptyGroups t with float_value := some t }, rest)
  | none =>
  match matchSignedInt cs with
  | some (t, rest) => some ({ emptyGroups t with integral_value := some t }, rest)
  | none =>
  match matchStringVal cs with
  | some (t, rest) => some ({ emptyGroups t with string_value := some t }, rest)
  | none =>
  match matchWord cs with
  | some (t, rest) => some ({ emptyGroups t with word_value := some t }, rest)
  | none => none

/-- The group-inspection chain shared by `hugin_extension_line.__init__` and
`imgfile_extension_line.__init__` (float, int, string, word, else raise),
parameterized by the qualifier and separator those constructors fix. -/
def buildMember4 (qual sep : List Char) (g : MemberGroups) : Option pto_member :=
  if truthy g.float_value then
    some ⟨qual, sep, g.member_text, 'f', PtoValue.vf (g.float_value.getD [])⟩
  else if truthy g.integral_value then
    some ⟨qual, sep, g.member_text, 'i', PtoValue.vi (pyInt (g.integral_value.getD []))⟩
  else if truthy g.string_value then
    some ⟨qual, sep, g.member_text, 's', PtoValue.vs (pyUnquote (g.string_value.getD []))⟩
  else if truthy g.word_value then
    some ⟨qual, sep, g.member_text, 'w', PtoValue.vw (g.word_value.getD [])⟩
  else none

/-- One anchored attempt of `hugin_key_value_re`: `\s*`, a nonempty
`[^=\s]+` key, a literal `=`, then the four-way value alternation. -/
def hkvMatchAt (cs : List Char) : Option (List Char × MemberGroups × List Char) :=
  let cs1 := cs.dropWhile isPySpace
  let k := cs1.takeWhile (fun c => c != '=' && !isPySpace c)
  if k.isEmpty then none
  else
    match cs1.dropWhile (fun c => c != '=' && !isPySpace c) with
    | '=' :: r2 => (memberTextMatch4 r2).map (fun p => (k, p.1, p.2))
    | _ => none

/-- `hugin_key_value_re.finditer` plus `hugin_extension_line.__init__`'s
member loop (separator fixed to `=`). -/
def hkvGo : Nat → List Char → Except String (List pto_member)
  | 0, _ => .ok []
  | fuel + 1, cs =>
    match hkvMatchAt cs with
    | some (k, g, rest) =>
      match buildMember4 k ['='] g with
      | some m => (hkvGo fuel rest).map (fun ms => m :: ms)
      | none => .error "SyntaxError: something went awfully wrong..."
    | none =>
      match cs with
      | [] => .ok []
      | _ :: cs2 => hkvGo fuel cs2

/-- `hugin_extension_line.__init__`: opaque base init, then key=value scan
from position `len(header)`. -/
def hugin_extension_line_init (line : List Char) (lineno : Nat) (header : List Char) :
    Except String pto_line :=
  ((hkvGo (line.drop header.length).length (line.drop header.length)).map
    (fun ms => ⟨line, lineno, header, some ms, []⟩))

/-- One anchored attempt of `imgfile_data_re`: `\s*` then the four-way
value alternation, untagged. -/
def imgfileMatchAt (cs : List Char) : Option (MemberGroups × List Char) :=
  memberTextMatch4 (cs.dropWhile isPySpace)

/-- `imgfile_data_re.finditer` plus `imgfile_extension_line.__init__`'s
member loop (qualifier and separator both empty). -/
def imgfileGo : Nat → List Char → Except String (List pto_member)
  | 0, _ => .ok []
  | fuel + 1, cs =>
    match imgfileMatchAt cs with
    | some (g, rest) =>
      match buildMember4 [] [] g with
      | some m => (imgfileGo fuel rest).map (fun ms => m :: ms)
      | none => .error "SyntaxError: something went awfully wrong..."
    | none =>
      match cs with
      | [] => .ok []
      | _ :: cs2 => imgfileGo fuel cs2

/-- `imgfile_extension_line.__init__`. -/
def imgfile_extension_line_init (line : List Char) (lineno : Nat) (header : List Char) :
    Except String pto_line :=
  ((imgfileGo (line.drop header.length).length (line.drop header.length)).map
    (fun ms => ⟨line, lineno, header, some ms, []⟩))

/-- Python `str.strip()`. -/
def pyStrip (cs : List Char) : List Char :=
  ((cs.dropWhile isPySpace).reverse.dropWhile isPySpace).reverse

/-- Python `<` on strings: lexicographic by code point. -/
def pyStrLt : List Char → List Char → Bool
  | [], [] => false
  | [], _ :: _ => true
  | _ :: _, [] => false
  | a :: as, b :: bs => a < b || (a == b && pyStrLt as bs)

/-- `hugin_option_re.match`: anchored `\#hugin_\S+`; returns the full
matched token (the line's header) when it matches. -/
def huginOptionHeader (line : List Char) : Option (List Char) :=
  match line with
  | '#' :: 'h' :: 'u' :: 'g' :: 'i' :: 'n' :: '_' :: r =>
    let w := r.takeWhile (fun c => !isPySpace c)
    if w.isEmpty then none else some ("#hugin_".data ++ w)
  | _ => none

/-- `hugin_option_line.__init__`: header is the matched `#hugin_XXXX` token;
if the stripped line extends past the header (string `<`), one untagged word
member holds `line[len(header)+1:]`; otherwise members is the empty (but
recognized) list.  `.error` is the `AttributeError` Python would raise if
the anchored match failed (unreachable from the scan dispatch). -/
def hugin_option_line_init (line : List Char) (lineno : Nat) : Except String pto_line :=
  match huginOptionHeader line with
  | none => .error "AttributeError: NoneType object has no attribute group"
  | some header =>
    let stripped := pyStrip line
    if pyStrLt header stripped then
      .ok ⟨line, lineno, header,
        some [⟨[], [], stripped.drop (header.length + 1), 'w',
          PtoValue.vw (stripped.drop (header.length + 1))⟩], []⟩
    else
      .ok ⟨line, lineno, header, some [], []⟩

/-- The post-sentinel loop of `pto_scan.__init__`: every remaining physical
line is recorded verbatim, not recognized, with header `""`. -/
def trailingLines : List (List Char) → Nat → List pto_line
  | [], _ => []
  | l :: ls, n => ⟨l, n, [], none, []⟩ :: trailingLines ls (n + 1)

/-- The line-classification loop of `pto_scan.__init__` (lines 192-243):
first character in `accepted_line_headers` → scanned generic line; `#` →
extension dispatch (when enabled) or plain comment; `*` → sentinel, stop and
record the rest verbatim; anything else → not recognized.  An empty string
would raise `IndexError` on `line[0]`, but `readlines` never yields one. -/
def scanLoop (accepted : List Char) (ext : Bool) :
    List (List Char) → Nat → Except String (List pto_line)
  | [], _ => .ok []
  | line :: rest, n =>
    match line with
    | [] => .error "IndexError: string index out of range"
    | c :: _ =>
      if accepted.contains c then
        match pto_line_init line n [c] true with
        | .error e => .error e
        | .ok pl => (scanLoop accepted ext rest (n + 1)).map (fun t => pl :: t)
      else if c == '#' then
        if ext then
          if "#-hugin".data.isPrefixOf line then
            match hugin_extension_line_init line n "#-hugin".data with
            | .error e => .error e
            | .ok pl => (scanLoop accepted ext rest (n + 1)).map (fun t => pl :: t)
          else if (huginOptionHeader line).isSome then
            match hugin_option_line_init line n with
            | .error e => .error e
            | .ok pl => (scanLoop accepted ext rest (n + 1)).map (fun t => pl :: t)
          else if "#-imgfile".data.isPrefixOf line then
            match imgfile_extension_line_init line n "#-imgfile".data with
            | .error e => .error e
            | .ok pl => (scanLoop accepted ext rest (n + 1)).map (fun t => pl :: t)
          else
            (scanLoop accepted ext rest (n + 1)).map (fun t => ⟨line, n, ['#'], none, []⟩ :: t)
        else
          (scanLoop accepted ext rest (n + 1)).map (fun t => ⟨line, n, ['#'], none, []⟩ :: t)
      else if c == '*' then
        .ok (⟨line, n, ['*'], none, []⟩ :: trailingLines rest (n + 1))
      else
        (scanLoop accepted ext rest (n + 1)).map (fun t => ⟨line, n, [], none, []⟩ :: t)

/-- `file.readlines()`: split after each newline, keeping the terminator;
a final fragment without a terminator is kept, an empty one is not. -/
def pySplitAux : List Char → List Char → List (List Char)
  | [], acc => if acc.isEmpty then [] else [acc.reverse]
  | '\n' :: cs, acc => (acc.reverse ++ ['\n']) :: pySplitAux cs []
  | c :: cs, acc => pySplitAux cs (c :: acc)

/-- Physical lines of the input. -/
def pySplitLines (s : List Char) : List (List Char) :=
  pySplitAux s []

/-- `pto_scan` from the source: the scan parameters, the sequential line
list, the `_member_access` flag, and the header-keyed line lists that
`make_member_access` installs as attributes (an insertion-ordered
association list, since `setattr`/`hasattr` key them by name). -/
structure pto_scan where
  accepted_line_headers : List Char
  scan_extensions : Bool
  sequential : List pto_line
  member_access : Bool
  headerIndex : List (List Char × List pto_line)
deriving DecidableEq, Repr

/-- Association-list lookup (Python `getattr`/`hasattr` by name). -/
def alookup {β : Type} : List (List Char × β) → List Char → Option β
  | [], _ => none
  | (k2, v) :: t, k => if k2 == k then some v else alookup t k

/-- Python `setattr`: overwrite an existing binding, else append. -/
def setAttr (attrs : List (List Char × pto_member)) (k : List Char) (m : pto_member) :
    List (List Char × pto_member) :=
  if (alookup attrs k).isSome then
    attrs.map (fun p => if p.1 == k then (p.1, m) else p)
  else attrs ++ [(k, m)]

/-- The inner loop `for m in line.members: setattr(line, m.type, m)`. -/
def addAttrs (l : pto_line) : pto_line :=
  match l.members with
  | some ms => { l with attrs := ms.foldl (fun a m => setAttr a m.type m) l.attrs }
  | none => l

/-- `if not hasattr(self, line.header): setattr(self, line.header, [])`. -/
def ensureKey (idx : List (List Char × List pto_line)) (h : List Char) :
    List (List Char × List pto_line) :=
  if (alookup idx h).isSome then idx else idx ++ [(h, [])]

/-- `getattr(self, line.header).append(line)`. -/
def appendKey (idx : List (List Char × List pto_line)) (h : List Char) (l : pto_line) :
    List (List Char × List pto_line) :=
  idx.map (fun p => if p.1 == h then (p.1, p.2 ++ [l]) else p)

/-- The per-line body of `make_member_access`: ensure the header key exists;
when the line's members are truthy, set the member attributes on the line
(in place, so `sequential` sees them too) and append it to its header list. -/
def mmaFold : List pto_line → List (List Char × List pto_line) →
    List pto_line × List (List Char × List pto_line)
  | [], idx => ([], idx)
  | l :: ls, idx =>
    let idx1 := ensureKey idx l.header
    if membersTruthy l then
      let l2 := addAttrs l
      let p := mmaFold ls (appendKey idx1 l.header l2)
      (l2 :: p.1, p.2)
    else
      let p := mmaFold ls idx1
      (l :: p.1, p.2)

/-- `pto_scan.make_member_access`: guarded by the `_member_access` flag, so
a second invocation returns immediately without touching anything. -/
def make_member_access (s : pto_scan) : pto_scan :=
  if s.member_access then s
  else
    let p := mmaFold s.sequential s.headerIndex
    { s with member_access := true, sequential := p.1, headerIndex := p.2 }

/-- `pto_scan.__init__` on fully-read input text (the source reads the whole
file with `readlines` before classifying anything). -/
def pto_scan_init (input : List Char) (accepted : List Char) (ext : Bool)
    (memberAccess : Bool) : Except String pto_scan :=
  (scanLoop accepted ext (pySplitLines input) 0).map (fun seq =>
    let s : pto_scan := ⟨accepted, ext, seq, false, []⟩
    if memberAccess then make_member_access s else s)

/-- `pto_scan.get_lines_like`. -/
def get_lines_like (s : pto_scan) (h : List Char) : List pto_line :=
  s.sequential.filter (fun l => l.header == h)

/-- `pto_scan.pto`: render every line in order. -/
def pto_scan_pto (s : pto_scan) (with_aux : Bool) : List Char :=
  (s.sequential.map (fun l => pto_line_pto l with_aux)).foldr (· ++ ·) []

/-- `strict_pto_scan.__init__` (source lines 337-340).  Its body evaluates
the undefined name `sccept_extensions` (a typo for `accept_extensions`)
while assembling the arguments of `pto_scan.__init__`, so construction
unconditionally raises `NameError` before any scanning happens. -/
def strict_pto_scan_init (_filename : List Char) : Except String pto_scan :=
  .error "NameError: global name sccept_extensions is not defined"

/-- Python `str.rfind`: index of the last occurrence, `-1` if absent. -/
def pyRfindAux (c : Char) : List Char → Nat → Int → Int
  | [], _, best => best
  | x :: t, i, best => pyRfindAux c t (i + 1) (if x == c then (i : Int) else best)

/-- Python `str.rfind` from position 0. -/
def pyRfind (cs : List Char) (c : Char) : Int :=
  pyRfindAux c cs 0 (-1)

/-- The extension component of `posixpath.splitext`: the suffix from the
last dot, unless every character of the basename before that dot is itself a
dot (so `".pto"` has no extension). -/
def splitextExt (p : List Char) : List Char :=
  let sepIndex := pyRfind p '/'
  let dotIndex := pyRfind p '.'
  if sepIndex < dotIndex then
    if ((p.drop (sepIndex + 1).toNat).take (dotIndex - sepIndex - 1).toNat).all
        (fun c => c == '.') then
      []
    else
      p.drop dotIndex.toNat
  else []

/-- ASCII `str.lower` (the filenames at this boundary are ASCII). -/
def asciiLower (c : Char) : Char :=
  if 'A' ≤ c && c ≤ 'Z' then Char.ofNat (c.toNat + 32) else c

/-- Python `str.lower` on an ASCII string. -/
def pyLower (cs : List Char) : List Char :=
  cs.map asciiLower

/-- `list.GET` from `app.py`: keep the directory entries whose extension,
lowercased, equals `".pto"`. -/
def list_GET (files : List (List Char)) : List (List Char) :=
  files.filter (fun f => pyLower (splitextExt f) == ".pto".data)

/-- The record `load.GET` builds for one image line. -/
structure img_record where
  name : PtoValue
  yaw : PtoValue
  pitch : PtoValue
  roll : PtoValue
  view : PtoValue
deriving DecidableEq, Repr

/-- Attribute access `i.<q>.value` on a line: the attribute
`make_member_access` set for qualifier `q`, or `AttributeError`. -/
def lineAttrValue (l : pto_line) (q : List Char) : Except String PtoValue :=
  match alookup l.attrs q with
  | some m => .ok m.value
  | none => .error ("AttributeError: " ++ String.mk q)

/-- The record built from one line of `pto.i`, reading `n`, `y`, `p`, `r`,
`v` in the source's evaluation order; any missing attribute raises. -/
def projectLine (l : pto_line) : Except String img_record := do
  let n ← lineAttrValue l "n".data
  let y ← lineAttrValue l "y".data
  let p ← lineAttrValue l "p".data
  let r ← lineAttrValue l "r".data
  let v ← lineAttrValue l "v".data
  .ok ⟨n, y, p, r, v⟩

/-- The loop `for i in pto.i: pto_data.append({...})`: records accumulate
in order and the first missing attribute aborts with its exception. -/
def projectLines : List pto_line → Except String (List img_record)
  | [] => .ok []
  | l :: ls =>
    match projectLine l with
    | .error e => .error e
    | .ok r => (projectLines ls).map (fun t => r :: t)

/-- `for i in pto.i: ...` — `pto.i` is the attribute the index build
installed for header `i`; absent when no line had that header. -/
def project_i (s : pto_scan) : Except String (List img_record) :=
  match alookup s.headerIndex "i".data with
  | none => .error "AttributeError: i"
  | some ilines => projectLines ilines

/-- `load.GET` from `app.py`: reject a filename containing `/` or starting
with `.`, scan the named file's content with the default parameters, and
project every image line.  The filesystem is modeled by passing the file's
content alongside its name. -/
def load_GET (filename : List Char) (content : List Char) :
    Except String (List img_record) :=
  if filename.contains '/' || (match filename with | '.' :: _ => true | _ => false) then
    .error "ValueError: Illegal character in filename"
  else
    (pto_scan_init content string_letters true true).bind project_i

end ParsePto

deriving instance DecidableEq for Except

namespace ParsePto

/-- C1: member scanning tries the six value grammars in the fixed order
float, rectangle, int, backref, string, word and takes the first match:
`12` classifies as int, `1.5` as float, `=3` after qualifier `a` as backref
with value 3 and separator `=`, `10,20,30,40` as rectangle `(10,20,30,40)`,
and `"a,b"` as string with unquoted value `a,b` (not rectangle or word). -/
theorem C1_member_grammar_precedence :
    finditerMembers "a12".data =
      .ok [⟨['a'], [], "12".data, 'i', PtoValue.vi 12⟩] ∧
    finditerMembers "a1.5".data =
      .ok [⟨['a'], [], "1.5".data, 'f', PtoValue.vf "1.5".data⟩] ∧
    finditerMembers "a=3".data =
      .ok [⟨['a'], ['='], "=3".data, 'b', PtoValue.vb 3⟩] ∧
    finditerMembers "a10,20,30,40".data =
      .ok [⟨['a'], [], "10,20,30,40".data, 'r', PtoValue.vr 10 20 30 40⟩] ∧
    finditerMembers "a\"a,b\"".data =
      .ok [⟨['a'], [], "\"a,b\"".data, 's', PtoValue.vs "a,b".data⟩] := by
  refine ⟨by decide, by decide, by decide, by decide, by decide⟩

/-- C9: with extensions enabled, `#hugin_blender PTBlender` scans to a line
with header `#hugin_blender` and exactly one member of datatype word,
qualifier `""` and value `PTBlender`; a `#hugin_` token line with nothing
after the header scans to a recognized line whose member sequence is empty
(`some []`, distinct from the not-recognized `none`). -/
theorem C9_hugin_option_lines :
    (pto_scan_init "#hugin_blender PTBlender\n#hugin_foo\n".data string_letters true true).map
        (fun s => s.sequential.map (fun l => (l.header, l.members))) =
      .ok [("#hugin_blender".data,
            some [⟨[], [], "PTBlender".data, 'w', PtoValue.vw "PTBlender".data⟩]),
           ("#hugin_foo".data, some [])] := by
  decide

/-- C10 counterexample: over the directory {a.pto, b.PTO, readme.txt} the
listing operation does not return only the case-sensitive match `a.pto`;
`b.PTO` is also returned, because the code lowercases the extension. -/
theorem C10_counterexample_case_insensitive :
    list_GET ["a.pto".data, "b.PTO".data, "readme.txt".data] ≠ ["a.pto".data] := by
  decide

/-- C10 amended: the listing operation over {a.pto, b.PTO, readme.txt}
returns exactly the names whose extension equals `.pto` after lowercasing —
a case-insensitive comparison — i.e. both `a.pto` and `b.PTO`. -/
theorem C10_amended_listing_case_insensitive :
    list_GET ["a.pto".data, "b.PTO".data, "readme.txt".data] =
      ["a.pto".data, "b.PTO".data] := by
  decide

/-- C6: the strict-mode constructor never produces a scan at all — its body
evaluates the undefined name `sccept_extensions` and raises `NameError` on
every input, even though `standard_headers` is exactly the canonical letter
set {p,v,i,m,o,z,c,k} and a scan restricted to it would make a line with any
other alphabetic first character opaque (header `""`, members
not-recognized), as the last conjunct shows for an `x` line. -/
theorem C6_strict_scan_raises_name_error :
    (∀ f, strict_pto_scan_init f =
      .error "NameError: global name sccept_extensions is not defined") ∧
    standard_headers = ['p', 'v', 'i', 'm', 'o', 'z', 'c', 'k'] ∧
    (pto_scan_init "x f1\n".data standard_headers true true).map
        (fun s => s.sequential.map (fun l => (l.header, l.members))) =
      .ok [([], none)] := by
  exact ⟨fun _ => rfl, by decide, by decide⟩

/-- C8: rebuilding the header index and field-slot registry a second time
is a no-op — `make_member_access` is idempotent, so no header list gains
duplicate line entries and re-registering the slot set of a line does not
error. -/
theorem C8_make_member_access_idempotent :
    ∀ s : pto_scan, make_member_access (make_member_access s) = make_member_access s := by
  intro s
  unfold make_member_access
  by_cases h : s.member_access <;> simp [h]

lemma dotTail_ne_nil {cs t r} (h : dotTail cs = some (t, r)) : t ≠ [] := by
  unfold dotTail at h
  split at h
  · exact Option.noConfusion h
  · split at h
    · simp only [Option.some.injEq, Prod.mk.injEq] at h
      rcases h with ⟨h1, _⟩
      subst h1
      simp
    · exact Option.noConfusion h

lemma floatBody_ne_nil {cs t r} (h : floatBody cs = some (t, r)) : t ≠ [] := by
  unfold floatBody at h
  split at h
  · exact Option.noConfusion h
  · split at h
    · split at h
      · exact Option.noConfusion h
      · simp only [Option.some.injEq, Prod.mk.injEq] at h
        rcases h with ⟨h1, _⟩
        subst h1
        simp
    · split at h
      · exact Option.noConfusion h
      · rcases hd : dotTail _ with _ | ⟨t2, r2⟩ <;> rw [hd] at h
        · exact Option.noConfusion h
        · simp only [Option.map_some', Option.some.injEq, Prod.mk.injEq] at h
          rcases h with ⟨h1, _⟩
          subst h1
          have := dotTail_ne_nil hd
          simp [List.append_eq_nil]
          intro _ hc
          exact this hc

lemma matchFloat_ne_nil {cs t r} (h : matchFloat cs = some (t, r)) : t ≠ [] := by
  unfold matchFloat at h
  split at h
  · exact Option.noConfusion h
  · split at h
    · rcases hb : floatBody _ with _ | p <;> rw [hb] at h
      · exact Option.noConfusion h
      · simp only [Option.map_some', Option.some.injEq, Prod.mk.injEq] at h
        rcases h with ⟨h1, _⟩
        subst h1
        simp
    · split at h
      · rcases hb : floatBody _ with _ | p <;> rw [hb] at h
        · exact Option.noConfusion h
        · simp only [Option.map_some', Option.some.injEq, Prod.mk.injEq] at h
          rcases h with ⟨h1, _⟩
          subst h1
          simp
      · exact floatBody_ne_nil h

lemma matchUInt_ne_nil {cs t r} (h : matchUInt cs = some (t, r)) : t ≠ [] := by
  unfold matchUInt at h
  split at h
  · exact Option.noConfusion h
  · simp only [Option.some.injEq, Prod.mk.injEq] at h
    rcases h with ⟨h1, _⟩
    subst h1
    simp_all [List.isEmpty_iff]

lemma matchSignedInt_ne_nil {cs t r} (h : matchSignedInt cs = some (t, r)) : t ≠ [] := by
  unfold matchSignedInt at h
  split at h
  · exact Option.noConfusion h
  · split at h
    · rcases hb : matchUInt _ with _ | p <;> rw [hb] at h
      · exact Option.noConfusion h
      · simp only [Option.map_some', Option.some.injEq, Prod.mk.injEq] at h
        rcases h with ⟨h1, _⟩
        subst h1
        simp
    · split at h
      · rcases hb : matchUInt _ with _ | p <;> rw [hb] at h
        · exact Option.noConfusion h
        · simp only [Option.map_some', Option.some.injEq, Prod.mk.injEq] at h
          rcases h with ⟨h1, _⟩
          subst h1
          simp
      · exact matchUInt_ne_nil h

lemma matchRect_ne_nil {cs g t r} (h : matchRect cs = some (g, t, r)) : t ≠ [] := by
  unfold matchRect at h
  split at h
  · exact Option.noConfusion h
  · split at h
    · exact Option.noConfusion h
    · split at h
      · split at h
        · exact Option.noConfusion h
        · split at h
          · exact Option.noConfusion h
          · split at h
            · split at h
              · exact Option.noConfusion h
              · split at h
                · exact Option.noConfusion h
                · split at h
                  · split at h
                    · exact Option.noConfusion h
                    · simp only [Option.some.injEq, Prod.mk.injEq] at h
                      rcases h with ⟨_, h1, _⟩
                      subst h1
                      simp
                  · exact Option.noConfusion h
            · exact Option.noConfusion h
      · exact Option.noConfusion h

lemma matchBackref_ne_nil {cs t r} (h : matchBackref cs = some (t, r)) : t ≠ [] := by
  unfold matchBackref at h
  split at h
  · exact Option.noConfusion h
  · split at h
    · rcases hb : matchUInt _ with _ | p <;> rw [hb] at h
      · exact Option.noConfusion h
      · simp only [Option.map_some', Option.some.injEq, Prod.mk.injEq] at h
        rcases h with ⟨h1, _⟩
        subst h1
        simp
    · exact Option.noConfusion h

lemma matchStringVal_ne_nil {cs t r} (h : matchStringVal cs = some (t, r)) : t ≠ [] := by
  unfold matchStringVal at h
  split at h
  · exact Option.noConfusion h
  · split at h
    · split at h
      · exact Option.noConfusion h
      · simp only [Option.some.injEq, Prod.mk.injEq] at h
        rcases h with ⟨h1, _⟩
        subst h1
        simp
    · exact Option.noConfusion h

lemma matchWord_ne_nil {cs t r} (h : matchWord cs = some (t, r)) : t ≠ [] := by
  unfold matchWord at h
  split at h
  · exact Option.noConfusion h
  · simp only [Option.some.injEq, Prod.mk.injEq] at h
    rcases h with ⟨h1, _⟩
    subst h1
    simp_all [List.isEmpty_iff]

/-- Whenever `member_text` matched, the group-inspection chain of
`pto_line.__init__` classifies it: the winning group is a nonempty capture,
so its truthiness test fires. -/
lemma buildMember_isSome (q : List Char) {cs g rest}
    (h : memberTextMatch cs = some (g, rest)) : (buildMember q g).isSome := by
  unfold memberTextMatch at h
  rcases hf : matchFloat cs with _ | ⟨t, r⟩ <;> rw [hf] at h
  · rcases hr : matchRect cs with _ | ⟨⟨a, b, c, d⟩, t, r⟩ <;> rw [hr] at h
    · rcases hi : matchSignedInt cs with _ | ⟨t, r⟩ <;> rw [hi] at h
      · rcases hb : matchBackref cs with _ | ⟨t, r⟩ <;> rw [hb] at h
        · rcases hs : matchStringVal cs with _ | ⟨t, r⟩ <;> rw [hs] at h
          · rcases hw : matchWord cs with _ | ⟨t, r⟩ <;> rw [hw] at h
            · exact Option.noConfusion h
            · have hne := matchWord_ne_nil hw
              simp only [Option.some.injEq, Prod.mk.injEq] at h
              rcases h with ⟨hg, _⟩
              subst hg
              simp [buildMember, truthy, emptyGroups, List.isEmpty_iff, hne]
          · have hne := matchStringVal_ne_nil hs
            simp only [Option.some.injEq, Prod.mk.injEq] at h
            rcases h with ⟨hg, _⟩
            subst hg
            simp [buildMember, truthy, emptyGroups, List.isEmpty_iff, hne]
        · have hne := matchBackref_ne_nil hb
          simp only [Option.some.injEq, Prod.mk.injEq] at h
          rcases h with ⟨hg, _⟩
          subst hg
          simp [buildMember, truthy, emptyGroups, List.isEmpty_iff, hne]
      · have hne := matchSignedInt_ne_nil hi
        simp only [Option.some.injEq, Prod.mk.injEq] at h
        rcases h with ⟨hg, _⟩
        subst hg
        simp [buildMember, truthy, emptyGroups, List.isEmpty_iff, hne]
    · have hne := matchRect_ne_nil hr
      simp only [Option.some.injEq, Prod.mk.injEq] at h
      rcases h with ⟨hg, _⟩
      subst hg
      simp [buildMember, truthy, emptyGroups, List.isEmpty_iff, hne]
  · have hne := matchFloat_ne_nil hf
    simp only [Option.some.injEq, Prod.mk.injEq] at h
    rcases h with ⟨hg, _⟩
    subst hg
    simp [buildMember, truthy, emptyGroups, List.isEmpty_iff, hne]

/-- What a successful anchored match reports came from `member_text` on one
of the qualifier candidates. -/
lemma regexMatchAt_textMatch {cs q g rest} (h : regexMatchAt cs = some (q, g, rest)) :
    ∃ r, memberTextMatch r = some (g, rest) := by
  unfold regexMatchAt at h
  generalize qualCandidates (cs.dropWhile isPySpace) = cands at h
  induction cands with
  | nil => exact Option.noConfusion h
  | cons hd tl ih =>
    unfold firstTextMatch at h
    rcases hm : memberTextMatch hd.2 with _ | ⟨g2, rem2⟩ <;> rw [hm] at h
    · exact ih h
    · simp only [Option.some.injEq, Prod.mk.injEq] at h
      rcases h with ⟨_, hg, hrest⟩
      exact ⟨hd.2, by rw [hm, hg, hrest]⟩

lemma finditerGo_nil (fuel : Nat) : finditerGo fuel [] = .ok [] := by
  cases fuel <;> rfl

lemma finditerGo_ok : ∀ (fuel : Nat) (cs : List Char), ∃ ms, finditerGo fuel cs = .ok ms := by
  intro fuel
  induction fuel with
  | zero => exact fun _ => ⟨[], rfl⟩
  | succ f ih =>
    intro cs
    rcases cs with _ | ⟨c, cs2⟩
    · exact ⟨[], finditerGo_nil _⟩
    · rcases hm : regexMatchAt (c :: cs2) with _ | ⟨q, g, rest⟩
      · rcases ih cs2 with ⟨ms, hms⟩
        refine ⟨ms, ?_⟩
        rw [finditerGo, hm]
        exact hms
      · rcases regexMatchAt_textMatch hm with ⟨r, hr⟩
        rcases Option.isSome_iff_exists.mp (buildMember_isSome q hr) with ⟨m, hbm⟩
        rcases ih rest with ⟨ms, hms⟩
        refine ⟨m :: ms, ?_⟩
        rw [finditerGo, hm]
        dsimp only
        rw [hbm]
        dsimp only
        rw [hms]
        rfl

/-- C4: a qualifier-matched member token is always classified by one of the
six value grammars, so the structural-fault branch (`raise SyntaxError`
after all six groups come back empty) is unreachable: the member scan
succeeds on every input. -/
theorem C4_structural_fault_unreachable :
    (∀ cs q g rest, regexMatchAt cs = some (q, g, rest) → ∃ m, buildMember q g = some m) ∧
    (∀ cs, ∃ ms, finditerMembers cs = .ok ms) := by
  constructor
  · intro cs q g rest h
    rcases regexMatchAt_textMatch h with ⟨r, hr⟩
    exact Option.isSome_iff_exists.mp (buildMember_isSome q hr)
  · intro cs
    exact finditerGo_ok cs.length cs

/-- C4 witness: the general theorem applied at the concrete input `a12`. -/
theorem C4_witness :
    (∃ m, buildMember ['a']
      ⟨"12".data, none, none, none, none, none, none, some "12".data, none, none, none⟩ =
        some m) ∧
    (∃ ms, finditerMembers "a12".data = .ok ms) :=
  ⟨C4_structural_fault_unreachable.1 "a12".data ['a']
    ⟨"12".data, none, none, none, none, none, none, some "12".data, none, none, none⟩
    [] (by decide),
   C4_structural_fault_unreachable.2 "a12".data⟩
/-- C2 counterexample: an input whose single line is a recognized generic
data line made of canonically formatted tokens (`p`, then the int member
`f1`) but with two separating spaces does not round-trip: the serializer
re-renders it with single spaces. -/
theorem C2_counterexample_spacing :
    (pto_scan_init "p  f1\n".data string_letters true true).map
        (fun s => pto_scan_pto s true) = .ok "p f1\n".data ∧
    "p f1\n".data ≠ "p  f1\n".data := by
  exact ⟨by decide, by decide⟩

/-- C5 counterexample: projecting a parsed document whose image line lacks
the `v` member faults with `AttributeError` instead of yielding a missing
field — the boundary reads `i.v.value` through attribute access. -/
theorem C5_counterexample_missing_member_faults :
    load_GET "f.pto".data "i w800 n\"x\" y0 p0 r0\n".data =
      .error "AttributeError: v" := by
  decide

/-- C7 counterexample: on a scanned opaque line (a comment), member lookup
does not return an absent value — it faults, because `select` iterates
`members` which is `None` for a not-recognized line. -/
theorem C7_counterexample_select_on_not_recognized :
    (pto_scan_init "# c\n".data string_letters true true).map
        (fun s => s.sequential.map (fun l => pto_line_select l ['n'])) =
      .ok [.error "TypeError: NoneType object is not iterable"] := by
  decide

lemma find?_first {α : Type} (p : α → Bool) :
    ∀ (ms : List α) (m : α), ms.find? p = some m →
      p m = true ∧ ∃ pre suf, ms = pre ++ m :: suf ∧ ∀ x ∈ pre, p x = false := by
  intro ms
  induction ms with
  | nil => exact fun m h => Option.noConfusion h
  | cons hd tl ih =>
    intro m h
    rw [List.find?_cons] at h
    rcases hp : p hd with _ | _
    · rw [hp] at h
      dsimp only at h
      obtain ⟨hpm, pre, suf, heq, hpre⟩ := ih m h
      refine ⟨hpm, hd :: pre, suf, by rw [heq]; rfl, ?_⟩
      intro x hx
      rcases List.mem_cons.mp hx with rfl | hx2
      · exact hp
      · exact hpre x hx2
    · rw [hp] at h
      dsimp only at h
      obtain rfl : hd = m := by simpa using h
      exact ⟨hp, [], tl, rfl, by simp⟩

/-- C7 amended: on a recognized Line (members present, possibly empty),
`select` returns an optional result without fault — the first member
carrying the qualifier, or an absent value when none does; on a
not-recognized (opaque) Line it raises a type fault instead
(see the counterexample). -/
theorem C7_amended_select_optional :
    ∀ (l : pto_line) (ms : List pto_member) (tag : List Char),
      l.members = some ms →
      ∃ r, pto_line_select l tag = .ok r ∧
        (r = none → ∀ m ∈ ms, m.type ≠ tag) ∧
        (∀ m, r = some m → m.type = tag ∧
          ∃ pre suf, ms = pre ++ m :: suf ∧ ∀ x ∈ pre, x.type ≠ tag) := by
  intro l ms tag hm
  refine ⟨ms.find? (fun m => m.type == tag), ?_, ?_, ?_⟩
  · unfold pto_line_select
    rw [hm]
  · intro hnone m hmem
    have := List.find?_eq_none.mp hnone m hmem
    simpa using this
  · intro m hr
    obtain ⟨hpm, pre, suf, heq, hpre⟩ := find?_first _ ms m hr
    exact ⟨by simpa using hpm, pre, suf, heq,
      fun x hx => by simpa using hpre x hx⟩

/-- Line used to witness the amended C7 statement. -/
def c7line : pto_line :=
  ⟨"p f1 v2\n".data, 0, ['p'],
    some [⟨['f'], [], ['1'], 'i', PtoValue.vi 1⟩, ⟨['v'], [], ['2'], 'i', PtoValue.vi 2⟩],
    []⟩

/-- C7 witness: the amended theorem applied to a concrete recognized line. -/
theorem C7_witness : ∃ r, pto_line_select c7line ['v'] = .ok r := by
  obtain ⟨r, hr, -, -⟩ :=
    C7_amended_select_optional c7line
      [⟨['f'], [], ['1'], 'i', PtoValue.vi 1⟩, ⟨['v'], [], ['2'], 'i', PtoValue.vi 2⟩]
      ['v'] rfl
  exact ⟨r, hr⟩

/-- Default-valued read of a line attribute, used to state what the
projection returns when the attribute exists. -/
def attrValD (l : pto_line) (q : List Char) : PtoValue :=
  match alookup l.attrs q with
  | some m => m.value
  | none => PtoValue.vw []

/-- C5 amended: the read-and-project operation emits, for each line the
header index lists under `i`, the record {name, yaw, pitch, roll, view}
drawn from that line's attribute slots `n`, `y`, `p`, `r`, `v` — provided
every such line carries all five slots; a missing slot raises
`AttributeError` instead of yielding a null field (see the
counterexample). -/
theorem C5_amended_projection :
    ∀ (s : pto_scan) (ilines : List pto_line),
      alookup s.headerIndex ['i'] = some ilines →
      (∀ l ∈ ilines, (alookup l.attrs ['n']).isSome ∧ (alookup l.attrs ['y']).isSome ∧
        (alookup l.attrs ['p']).isSome ∧ (alookup l.attrs ['r']).isSome ∧
        (alookup l.attrs ['v']).isSome) →
      project_i s = .ok (ilines.map (fun l =>
        ⟨attrValD l ['n'], attrValD l ['y'], attrValD l ['p'],
          attrValD l ['r'], attrValD l ['v']⟩)) := by
  intro s ilines hidx hall
  unfold project_i
  rw [show "i".data = ['i'] from rfl, hidx]
  dsimp only
  clear hidx
  induction ilines with
  | nil => rfl
  | cons l ls ih =>
    obtain ⟨⟨hn, hy, hp, hr, hv⟩, hrest⟩ := List.forall_mem_cons.mp hall
    obtain ⟨mn, hn⟩ := Option.isSome_iff_exists.mp hn
    obtain ⟨my, hy⟩ := Option.isSome_iff_exists.mp hy
    obtain ⟨mp, hp⟩ := Option.isSome_iff_exists.mp hp
    obtain ⟨mr, hr⟩ := Option.isSome_iff_exists.mp hr
    obtain ⟨mv, hv⟩ := Option.isSome_iff_exists.mp hv
    have hline : projectLine l =
        .ok ⟨mn.value, my.value, mp.value, mr.value, mv.value⟩ := by
      unfold projectLine lineAttrValue
      rw [show "n".data = ['n'] from rfl, show "y".data = ['y'] from rfl,
        show "p".data = ['p'] from rfl, show "r".data = ['r'] from rfl,
        show "v".data = ['v'] from rfl, hn, hy, hp, hr, hv]
      rfl
    simp only [projectLines]
    rw [hline]
    dsimp only
    rw [ih hrest]
    simp [attrValD, hn, hy, hp, hr, hv, Except.map]

/-- Image line used to witness the amended C5 statement: the scan of the
spec's end-to-end example line with its attribute slots installed. -/
def c5line : pto_line :=
  ⟨"i n\"a\" y0 p1 r2 v80\n".data, 0, ['i'],
    some [⟨['n'], [], "\"a\"".data, 's', PtoValue.vs ['a']⟩,
      ⟨['y'], [], ['0'], 'i', PtoValue.vi 0⟩,
      ⟨['p'], [], ['1'], 'i', PtoValue.vi 1⟩,
      ⟨['r'], [], ['2'], 'i', PtoValue.vi 2⟩,
      ⟨['v'], [], "80".data, 'i', PtoValue.vi 80⟩],
    [(['n'], ⟨['n'], [], "\"a\"".data, 's', PtoValue.vs ['a']⟩),
     (['y'], ⟨['y'], [], ['0'], 'i', PtoValue.vi 0⟩),
     (['p'], ⟨['p'], [], ['1'], 'i', PtoValue.vi 1⟩),
     (['r'], ⟨['r'], [], ['2'], 'i', PtoValue.vi 2⟩),
     (['v'], ⟨['v'], [], "80".data, 'i', PtoValue.vi 80⟩)]⟩

/-- Document used to witness the amended C5 statement. -/
def c5scan : pto_scan :=
  ⟨string_letters, true, [c5line], true, [(['i'], [c5line])]⟩

/-- C5 witness: the amended theorem applied to a concrete document whose
single image line carries all five slots. -/
theorem C5_witness :
    project_i c5scan = .ok [⟨attrValD c5line ['n'], attrValD c5line ['y'],
      attrValD c5line ['p'], attrValD c5line ['r'], attrValD c5line ['v']⟩] :=
  C5_amended_projection c5scan [c5line] rfl (by decide)

/-- Does the physical line begin with the sentinel character? -/
def starHead : List Char → Bool
  | [] => false
  | c :: _ => c == '*'

/-- The scan-relevant core of a line: source text, header, members —
everything except the line number and the attribute slots
`make_member_access` may later add. -/
def lineCore (l : pto_line) : List Char × List Char × Option (List pto_member) :=
  (l.sourcecode, l.header, l.members)

lemma addAttrs_core (l : pto_line) : lineCore (addAttrs l) = lineCore l := by
  unfold addAttrs
  cases h : l.members <;> simp [lineCore, h]

lemma mmaFold_core : ∀ (ls : List pto_line) (idx : List (List Char × List pto_line)),
    ((mmaFold ls idx).1).map lineCore = ls.map lineCore := by
  intro ls
  induction ls with
  | nil => intro idx; rfl
  | cons l tl ih =>
    intro idx
    simp only [mmaFold]
    split
    · simp [addAttrs_core, ih]
    · simp [ih]

lemma mma_core (s : pto_scan) :
    ((make_member_access s).sequential).map lineCore = s.sequential.map lineCore := by
  unfold make_member_access
  split
  · rfl
  · exact mmaFold_core s.sequential s.headerIndex

lemma trailingLines_length : ∀ (ls : List (List Char)) (n : Nat),
    (trailingLines ls n).length = ls.length := by
  intro ls
  induction ls with
  | nil => intro n; rfl
  | cons hd tl ih => intro n; simp [trailingLines, ih]

lemma trailingLines_get? : ∀ (ls : List (List Char)) (n k : Nat),
    (trailingLines ls n).get? k =
      (ls.get? k).map (fun l => (⟨l, n + k, [], none, []⟩ : pto_line)) := by
  intro ls
  induction ls with
  | nil => intro n k; simp [trailingLines]
  | cons hd tl ih =>
    intro n k
    cases k with
    | zero => rfl
    | succ k2 =>
      have harith : n + 1 + k2 = n + (k2 + 1) := by omega
      simpa [trailingLines, harith] using ih (n + 1) k2

/-- One non-sentinel step of the classification loop: the line contributes
exactly one element and scanning continues on the rest. -/
lemma scanLoop_cons_ok {accepted : List Char} {ext : Bool} {line : List Char}
    {rest : List (List Char)} {n : Nat} {seq : List pto_line}
    (h : scanLoop accepted ext (line :: rest) n = .ok seq)
    (hstar : starHead line = false) :
    ∃ pl tail, seq = pl :: tail ∧ scanLoop accepted ext rest (n + 1) = .ok tail := by
  rcases line with _ | ⟨c, lrest⟩
  · rw [scanLoop] at h
    exact Except.noConfusion h
  · have hc : (c == '*') = false := by simpa [starHead] using hstar
    rw [scanLoop] at h
    dsimp only at h
    split at h
    · rcases e1 : pto_line_init (c :: lrest) n [c] true with e | pl <;> rw [e1] at h <;>
        dsimp only at h
      · exact Except.noConfusion h
      · rcases e2 : scanLoop accepted ext rest (n + 1) with e | tail <;> rw [e2] at h <;>
          simp only [Except.map] at h
        · exact Except.noConfusion h
        · exact ⟨pl, tail, by simpa using h.symm, rfl⟩
    · split at h
      · split at h
        · split at h
          · rcases e1 : hugin_extension_line_init (c :: lrest) n "#-hugin".data with e | pl <;>
              rw [e1] at h <;> dsimp only at h
            · exact Except.noConfusion h
            · rcases e2 : scanLoop accepted ext rest (n + 1) with e | tail <;> rw [e2] at h <;>
                simp only [Except.map] at h
              · exact Except.noConfusion h
              · exact ⟨pl, tail, by simpa using h.symm, rfl⟩
          · split at h
            · rcases e1 : hugin_option_line_init (c :: lrest) n with e | pl <;>
                rw [e1] at h <;> dsimp only at h
              · exact Except.noConfusion h
              · rcases e2 : scanLoop accepted ext rest (n + 1) with e | tail <;> rw [e2] at h <;>
                  simp only [Except.map] at h
                · exact Except.noConfusion h
                · exact ⟨pl, tail, by simpa using h.symm, rfl⟩
            · split at h
              · rcases e1 : imgfile_extension_line_init (c :: lrest) n "#-imgfile".data with
                    e | pl <;> rw [e1] at h <;> dsimp only at h
                · exact Except.noConfusion h
                · rcases e2 : scanLoop accepted ext rest (n + 1) with e | tail <;> rw [e2] at h <;>
                    simp only [Except.map] at h
                  · exact Except.noConfusion h
                  · exact ⟨pl, tail, by simpa using h.symm, rfl⟩
              · rcases e2 : scanLoop accepted ext rest (n + 1) with e | tail <;> rw [e2] at h <;>
                  simp only [Except.map] at h
                · exact Except.noConfusion h
                · exact ⟨_, tail, by simpa using h.symm, rfl⟩
        · rcases e2 : scanLoop accepted ext rest (n + 1) with e | tail <;> rw [e2] at h <;>
            simp only [Except.map] at h
          · exact Except.noConfusion h
          · exact ⟨_, tail, by simpa using h.symm, rfl⟩
      · split at h
        · simp_all
        · rcases e2 : scanLoop accepted ext rest (n + 1) with e | tail <;> rw [e2] at h <;>
            simp only [Except.map] at h
          · exact Except.noConfusion h
          · exact ⟨_, tail, by simpa using h.symm, rfl⟩

/-- The sentinel step: a line beginning with `*` (with `*` not an accepted
header) is recorded opaque with header `*` and every remaining physical
line is appended verbatim, not recognized, with header `""`. -/
lemma scanLoop_star_case {accepted : List Char} {ext : Bool} {line : List Char}
    {rest : List (List Char)} {n : Nat} {seq : List pto_line}
    (h : scanLoop accepted ext (line :: rest) n = .ok seq)
    (hstar : starHead line = true)
    (hacc : accepted.contains '*' = false) :
    seq = ⟨line, n, ['*'], none, []⟩ :: trailingLines rest (n + 1) := by
  rcases line with _ | ⟨c, lrest⟩
  · exact absurd hstar (by simp [starHead])
  · have hc : c = '*' := by simpa [starHead] using hstar
    subst hc
    rw [scanLoop] at h
    simp only [hacc] at h
    simp at h
    exact h.symm

lemma scanLoop_star : ∀ (lines : List (List Char)) (n j : Nat) (seq : List pto_line),
    scanLoop string_letters true lines n = .ok seq →
    (∀ i li, i < j → lines.get? i = some li → starHead li = false) →
    ∀ lj, lines.get? j = some lj → starHead lj = true →
    seq.length = lines.length ∧
    seq.get? j = some ⟨lj, n + j, ['*'], none, []⟩ ∧
    ∀ k lk, j < k → lines.get? k = some lk →
      seq.get? k = some ⟨lk, n + k, [], none, []⟩ := by
  intro lines
  induction lines with
  | nil =>
    intro n j seq h hpre lj hj
    exact absurd hj (by simp)
  | cons hd tl ih =>
    intro n j seq h hpre lj hj hstar
    cases j with
    | zero =>
      obtain rfl : hd = lj := by simpa using hj
      have hseq := scanLoop_star_case h hstar (by decide)
      subst hseq
      refine ⟨by simp [trailingLines_length], by simp, ?_⟩
      intro k lk hk hlk
      rcases k with _ | k2
      · omega
      · have harith : n + 1 + k2 = n + (k2 + 1) := by omega
        have := trailingLines_get? tl (n + 1) k2
        simp only [List.get?] at hlk ⊢
        rw [this, show tl.get? k2 = some lk from hlk, harith]
        rfl
    | succ j2 =>
      have hhd : starHead hd = false := hpre 0 hd (by omega) rfl
      obtain ⟨pl, tail, rfl, htail⟩ := scanLoop_cons_ok h hhd
      have hj2 : tl.get? j2 = some lj := by simpa using hj
      have hpre2 : ∀ i li, i < j2 → tl.get? i = some li → starHead li = false :=
        fun i li hi hli => hpre (i + 1) li (by omega) (by simpa using hli)
      obtain ⟨hlen, hstarpos, htrail⟩ := ih (n + 1) j2 tail htail hpre2 lj hj2 hstar
      refine ⟨by simpa using hlen, ?_, ?_⟩
      · have harith : n + 1 + j2 = n + (j2 + 1) := by omega
        simpa [harith] using hstarpos
      · intro k lk hk hlk
        rcases k with _ | k2
        · omega
        · have harith : n + 1 + k2 = n + (k2 + 1) := by omega
          have := htrail k2 lk (by omega) (by simpa using hlk)
          simpa [harith] using this

/-- C3: once a line beginning with `*` is scanned (under the default scan
parameters), that line is recorded opaque with header `*` and members
not-recognized, and every subsequent physical line — even one that would
otherwise parse as a valid data line — appears verbatim as an opaque line
with header `""` and members not-recognized, in original order, with the
total line count preserved. -/
theorem C3_trailing_sentinel :
    ∀ (input : List Char) (s : pto_scan) (j : Nat) (lj : List Char),
      pto_scan_init input string_letters true true = .ok s →
      (∀ i li, i < j → (pySplitLines input).get? i = some li → starHead li = false) →
      (pySplitLines input).get? j = some lj →
      starHead lj = true →
      s.sequential.length = (pySplitLines input).length ∧
      (s.sequential.get? j).map lineCore = some (lj, ['*'], none) ∧
      ∀ k lk, j < k → (pySplitLines input).get? k = some lk →
        (s.sequential.get? k).map lineCore = some (lk, [], none) := by
  intro input s j lj hinit hpre hj hstar
  unfold pto_scan_init at hinit
  rcases hscan : scanLoop string_letters true (pySplitLines input) 0 with e | seq0 <;>
    rw [hscan] at hinit <;> simp only [Except.map] at hinit
  · exact Except.noConfusion hinit
  · have hs : s = make_member_access ⟨string_letters, true, seq0, false, []⟩ := by
      simpa using hinit.symm
    obtain ⟨hlen, hstarpos, htrail⟩ := scanLoop_star (pySplitLines input) 0 j seq0
      hscan hpre lj hj hstar
    have hcore : s.sequential.map lineCore = seq0.map lineCore := by
      rw [hs]
      exact mma_core ⟨string_letters, true, seq0, false, []⟩
    have hlens : s.sequential.length = seq0.length := by
      have := congrArg List.length hcore
      simpa using this
    have hget : ∀ k, (s.sequential.get? k).map lineCore = (seq0.get? k).map lineCore := by
      intro k
      have h1 := congrArg (fun xs => List.get? xs k) hcore
      simpa [List.get?_map] using h1
    refine ⟨by omega, ?_, ?_⟩
    · rw [hget j, hstarpos]
      rfl
    · intro k lk hk hlk
      rw [hget k, htrail k lk hk hlk]
      rfl

/-- Helper to extract the success value of a computed scan. -/
def exOk {ε α : Type} : Except ε α → Bool
  | .ok _ => true
  | .error _ => false

lemma exOk_exists {ε α : Type} {e : Except ε α} (h : exOk e = true) : ∃ a, e = .ok a := by
  cases e with
  | ok a => exact ⟨a, rfl⟩
  | error _ => exact absurd h (by simp [exOk])

/-- C3 witness: the sentinel theorem applied to a concrete document whose
second line starts with `*` and whose third line would otherwise be a valid
data line. -/
theorem C3_witness :
    ∃ s, pto_scan_init "p f1\n* z\np f2\n".data string_letters true true = .ok s ∧
      s.sequential.length = 3 ∧
      (s.sequential.get? 1).map lineCore = some ("* z\n".data, ['*'], none) ∧
      (s.sequential.get? 2).map lineCore = some ("p f2\n".data, [], none) := by
  obtain ⟨s, hs⟩ := exOk_exists
    (show exOk (pto_scan_init "p f1\n* z\np f2\n".data string_letters true true) = true by
      decide)
  obtain ⟨hlen, hstarpos, htrail⟩ := C3_trailing_sentinel
    "p f1\n* z\np f2\n".data s 1 "* z\n".data hs
    (by
      intro i li hi hli
      interval_cases i
      have h0 : (pySplitLines "p f1\n* z\np f2\n".data).get? 0 = some "p f1\n".data := by
        decide
      rw [h0] at hli
      obtain rfl : ("p f1\n".data : List Char) = li := by simpa using hli
      decide)
    (by decide) (by decide)
  refine ⟨s, hs, by rw [hlen]; decide, hstarpos, ?_⟩
  exact htrail 2 "p f2\n".data (by omega) (by decide)

lemma ws_beq_false {w d : Char} (hw : isPySpace w = true) (hd : isPySpace d = false) :
    (w == d) = false := by
  rcases hwd : w == d with _ | _
  · rfl
  · obtain rfl := eq_of_beq hwd
    rw [hw] at hd
    exact Bool.noConfusion hd

lemma ws_not_digit {w : Char} (hw : isPySpace w = true) : isPyDigit w = false := by
  unfold isPySpace at hw
  rcases Bool.or_eq_true_iff.mp hw with h | h
  · rcases Bool.or_eq_true_iff.mp h with h | h
    · rcases Bool.or_eq_true_iff.mp h with h | h
      · rcases Bool.or_eq_true_iff.mp h with h | h
        · rcases Bool.or_eq_true_iff.mp h with h | h
          · obtain rfl := eq_of_beq h; rfl
          · obtain rfl := eq_of_beq h; rfl
        · obtain rfl := eq_of_beq h; rfl
      · obtain rfl := eq_of_beq h; rfl
    · obtain rfl := eq_of_beq h; rfl
  · obtain rfl := eq_of_beq h; rfl

lemma ws_not_letter {w : Char} (hw : isPySpace w = true) : isPyLetter w = false := by
  unfold isPySpace at hw
  rcases Bool.or_eq_true_iff.mp hw with h | h
  · rcases Bool.or_eq_true_iff.mp h with h | h
    · rcases Bool.or_eq_true_iff.mp h with h | h
      · rcases Bool.or_eq_true_iff.mp h with h | h
        · rcases Bool.or_eq_true_iff.mp h with h | h
          · obtain rfl := eq_of_beq h; rfl
          · obtain rfl := eq_of_beq h; rfl
        · obtain rfl := eq_of_beq h; rfl
      · obtain rfl := eq_of_beq h; rfl
    · obtain rfl := eq_of_beq h; rfl
  · obtain rfl := eq_of_beq h; rfl

/-- Does the list start with a Python whitespace character? -/
def wsHead : List Char → Bool
  | [] => false
  | c :: _ => isPySpace c

lemma takeWhile_append_not (p : Char → Bool) : ∀ (a : List Char) {b : List Char},
    (∀ c t, b = c :: t → p c = false) →
    (a ++ b).takeWhile p = a.takeWhile p ∧ (a ++ b).dropWhile p = a.dropWhile p ++ b := by
  intro a
  induction a with
  | nil =>
    intro b hb
    cases b with
    | nil => simp
    | cons c t => simp [List.takeWhile_cons, List.dropWhile_cons, hb c t rfl]
  | cons x xs ih =>
    intro b hb
    rcases hp : p x with _ | _ <;>
      simp [List.takeWhile_cons, List.dropWhile_cons, hp, (ih hb).1, (ih hb).2]

lemma takeWhile_append_stop (p : Char → Bool) : ∀ (a : List Char) (b : List Char),
    a.dropWhile p ≠ [] →
    (a ++ b).takeWhile p = a.takeWhile p ∧ (a ++ b).dropWhile p = a.dropWhile p ++ b := by
  intro a
  induction a with
  | nil => intro b hne; exact absurd rfl hne
  | cons x xs ih =>
    intro b hne
    rcases hp : p x with _ | _
    · simp [List.takeWhile_cons, List.dropWhile_cons, hp]
    · rw [List.dropWhile_cons, hp] at hne
      simp only [if_pos rfl] at hne
      simpa [List.takeWhile_cons, List.dropWhile_cons, hp] using ih b hne

lemma dropWhile_head_not (p : Char → Bool) : ∀ (l : List Char) {c : Char} {t : List Char},
    l.dropWhile p = c :: t → p c = false := by
  intro l
  induction l with
  | nil => intro c t h; exact List.noConfusion h
  | cons x xs ih =>
    intro c t h
    rw [List.dropWhile_cons] at h
    split at h
    · exact ih h
    · rename_i hp
      obtain ⟨rfl, -⟩ := List.cons.inj h
      simpa using hp

lemma wsHead_not_digit {rest : List Char} (hw : wsHead rest = true) :
    ∀ c t, rest = c :: t → isPyDigit c = false := by
  intro c t h
  subst h
  exact ws_not_digit hw

lemma wsHead_not_nonspace {rest : List Char} (hw : wsHead rest = true) :
    ∀ c t, rest = c :: t → (!isPySpace c) = false := by
  intro c t h
  subst h
  simp_all [wsHead]

lemma wsHead_beq_false {rest : List Char} (hw : wsHead rest = true) {d : Char}
    (hd : isPySpace d = false) : ∀ c t, rest = c :: t → (c == d) = false := by
  intro c t h
  subst h
  exact ws_beq_false hw hd

lemma matchUInt_ws_none {rest : List Char} (hw : wsHead rest = true) :
    matchUInt rest = none := by
  rcases rest with _ | ⟨w, rt⟩
  · rfl
  · unfold matchUInt
    rw [List.takeWhile_cons, ws_not_digit hw]
    rfl

lemma matchSignedInt_ws_none {rest : List Char} (hw : wsHead rest = true) :
    matchSignedInt rest = none := by
  rcases rest with _ | ⟨w, rt⟩
  · rfl
  · unfold matchSignedInt
    dsimp only
    rw [ws_beq_false hw (by decide), ws_beq_false hw (by decide)]
    simpa using matchUInt_ws_none hw

lemma floatBody_ws_none {rest : List Char} (hw : wsHead rest = true) :
    floatBody rest = none := by
  rcases rest with _ | ⟨w, rt⟩
  · rfl
  · unfold floatBody
    dsimp only
    rw [ws_beq_false hw (by decide)]
    simp only [Bool.false_eq_true, if_false]
    rw [List.takeWhile_cons, ws_not_digit hw]
    rfl

lemma matchFloat_ws_none {rest : List Char} (hw : wsHead rest = true) :
    matchFloat rest = none := by
  rcases rest with _ | ⟨w, rt⟩
  · rfl
  · unfold matchFloat
    dsimp only
    rw [ws_beq_false hw (by decide), ws_beq_false hw (by decide)]
    simpa using floatBody_ws_none hw

lemma matchRect_ws_none {rest : List Char} (hw : wsHead rest = true) :
    matchRect rest = none := by
  unfold matchRect
  rw [matchSignedInt_ws_none hw]

lemma matchBackref_ws_none {rest : List Char} (hw : wsHead rest = true) :
    matchBackref rest = none := by
  rcases rest with _ | ⟨w, rt⟩
  · rfl
  · unfold matchBackref
    dsimp only
    rw [ws_beq_false hw (by decide)]
    rfl

lemma matchStringVal_ws_none {rest : List Char} (hw : wsHead rest = true) :
    matchStringVal rest = none := by
  rcases rest with _ | ⟨w, rt⟩
  · rfl
  · unfold matchStringVal
    dsimp only
    rw [ws_beq_false hw (by decide)]
    rfl

lemma matchWord_ws_none {rest : List Char} (hw : wsHead rest = true) :
    matchWord rest = none := by
  rcases rest with _ | ⟨w, rt⟩
  · rfl
  · unfold matchWord
    rw [List.takeWhile_cons]
    have : (!isPySpace w) = false := by simp_all [wsHead]
    rw [this]
    rfl

lemma memberTextMatch_ws_none {rest : List Char} (hw : wsHead rest = true) :
    memberTextMatch rest = none := by
  unfold memberTextMatch
  rw [matchFloat_ws_none hw, matchRect_ws_none hw, matchSignedInt_ws_none hw,
    matchBackref_ws_none hw, matchStringVal_ws_none hw, matchWord_ws_none hw]

lemma matchUInt_append {r t rem rest : List Char} (h : matchUInt r = some (t, rem))
    (hw : wsHead rest = true) : matchUInt (r ++ rest) = some (t, rem ++ rest) := by
  unfold matchUInt at h ⊢
  obtain ⟨hT, hD⟩ := takeWhile_append_not isPyDigit r (wsHead_not_digit hw)
  rw [hT, hD]
  split at h
  · exact Option.noConfusion h
  · rename_i hne
    simp only [Option.some.injEq, Prod.mk.injEq] at h
    obtain ⟨rfl, rfl⟩ := h
    rw [if_neg hne]

lemma matchUInt_append_none {r rest : List Char} (h : matchUInt r = none)
    (hw : wsHead rest = true) : matchUInt (r ++ rest) = none := by
  unfold matchUInt at h ⊢
  obtain ⟨hT, hD⟩ := takeWhile_append_not isPyDigit r (wsHead_not_digit hw)
  rw [hT]
  split at h
  · rename_i he
    rw [if_pos he]
  · exact Option.noConfusion h

lemma matchSignedInt_append {r t rem rest : List Char}
    (h : matchSignedInt r = some (t, rem)) (hw : wsHead rest = true) :
    matchSignedInt (r ++ rest) = some (t, rem ++ rest) := by
  unfold matchSignedInt at h ⊢
  rcases r with _ | ⟨c, cs1⟩
  · exact Option.noConfusion h
  · rw [List.cons_append]
    dsimp only at h ⊢
    split at h
    · rename_i hc
      rw [if_pos hc]
      rcases hu : matchUInt cs1 with _ | ⟨t1, rem1⟩ <;> rw [hu] at h
      · exact Option.noConfusion h
      · simp only [Option.map_some', Option.some.injEq, Prod.mk.injEq] at h
        obtain ⟨rfl, rfl⟩ := h
        rw [matchUInt_append hu hw]
        rfl
    · split at h
      · rename_i hc hc2
        rw [if_neg hc, if_pos hc2]
        rcases hu : matchUInt cs1 with _ | ⟨t1, rem1⟩ <;> rw [hu] at h
        · exact Option.noConfusion h
        · simp only [Option.map_some', Option.some.injEq, Prod.mk.injEq] at h
          obtain ⟨rfl, rfl⟩ := h
          rw [matchUInt_append hu hw]
          rfl
      · rename_i hc hc2
        rw [if_neg hc, if_neg hc2]
        exact matchUInt_append h hw

lemma matchSignedInt_append_none {r rest : List Char} (h : matchSignedInt r = none)
    (hw : wsHead rest = true) : matchSignedInt (r ++ rest) = none := by
  rcases r with _ | ⟨c, cs1⟩
  · simpa using matchSignedInt_ws_none hw
  · unfold matchSignedInt at h ⊢
    rw [List.cons_append]
    dsimp only at h ⊢
    split at h
    · rename_i hc
      rw [if_pos hc]
      rcases hu : matchUInt cs1 with _ | p <;> rw [hu] at h
      · rw [matchUInt_append_none hu hw]
        rfl
      · exact Option.noConfusion h
    · split at h
      · rename_i hc hc2
        rw [if_neg hc, if_pos hc2]
        rcases hu : matchUInt cs1 with _ | p <;> rw [hu] at h
        · rw [matchUInt_append_none hu hw]
          rfl
        · exact Option.noConfusion h
      · rename_i hc hc2
        rw [if_neg hc, if_neg hc2]
        exact matchUInt_append_none h hw

lemma dotTail_append {x dt rest : List Char} (h : dotTail x = some (dt, []))
    (hw : wsHead rest = true) : dotTail (x ++ rest) = some (dt, rest) := by
  unfold dotTail at h ⊢
  rcases x with _ | ⟨c, cs4⟩
  · exact Option.noConfusion h
  · rw [List.cons_append]
    dsimp only at h ⊢
    split at h
    · rename_i hc
      rw [if_pos hc]
      obtain ⟨hT, hD⟩ := takeWhile_append_not isPyDigit cs4 (wsHead_not_digit hw)
      simp only [Option.some.injEq, Prod.mk.injEq] at h
      obtain ⟨rfl, hdrop⟩ := h
      rw [hT, hD, hdrop]
      rfl
    · exact Option.noConfusion h

lemma dotTail_append_none {x rest : List Char} (h : dotTail x = none)
    (hw : wsHead rest = true) : dotTail (x ++ rest) = none := by
  unfold dotTail at h ⊢
  rcases x with _ | ⟨c, cs4⟩
  · rcases rest with _ | ⟨w, rt⟩
    · rfl
    · rw [List.nil_append]
      dsimp only
      rw [ws_beq_false hw (by decide)]
      rfl
  · rw [List.cons_append]
    dsimp only at h ⊢
    split at h
    · exact Option.noConfusion h
    · rename_i hc
      rw [if_neg hc]

lemma floatBody_append {r t rest : List Char} (h : floatBody r = some (t, []))
    (hw : wsHead rest = true) : floatBody (r ++ rest) = some (t, rest) := by
  unfold floatBody at h ⊢
  rcases r with _ | ⟨c, cs3⟩
  · exact Option.noConfusion h
  · rw [List.cons_append]
    dsimp only at h ⊢
    split at h
    · rename_i hc
      rw [if_pos hc]
      split at h
      · exact Option.noConfusion h
      · rename_i hne
        obtain ⟨hT, hD⟩ := takeWhile_append_not isPyDigit cs3 (wsHead_not_digit hw)
        simp only [Option.some.injEq, Prod.mk.injEq] at h
        obtain ⟨rfl, hdrop⟩ := h
        rw [hT, hD, hdrop, if_neg hne]
        rfl
    · rename_i hc
      rw [if_neg hc]
      split at h
      · exact Option.noConfusion h
      · rename_i hne
        obtain ⟨hT, hD⟩ := takeWhile_append_not isPyDigit (c :: cs3) (wsHead_not_digit hw)
        rcases hd : dotTail ((c :: cs3).dropWhile isPyDigit) with _ | ⟨dt, dr⟩ <;>
          rw [hd] at h
        · exact Option.noConfusion h
        · simp only [Option.map_some', Option.some.injEq, Prod.mk.injEq] at h
          obtain ⟨rfl, rfl⟩ := h
          rw [show ((c :: cs3) ++ rest : List Char) = c :: (cs3 ++ rest) from rfl] at hT hD
          rw [hT, hD, if_neg hne, dotTail_append hd hw]
          rfl

lemma floatBody_append_none {r rest : List Char} (h : floatBody r = none)
    (hw : wsHead rest = true) : floatBody (r ++ rest) = none := by
  rcases r with _ | ⟨c, cs3⟩
  · simpa using floatBody_ws_none hw
  · unfold floatBody at h ⊢
    rw [List.cons_append]
    dsimp only at h ⊢
    obtain ⟨hT3, hD3⟩ := takeWhile_append_not isPyDigit cs3 (wsHead_not_digit hw)
    obtain ⟨hT, hD⟩ := takeWhile_append_not isPyDigit (c :: cs3) (wsHead_not_digit hw)
    rw [show ((c :: cs3) ++ rest : List Char) = c :: (cs3 ++ rest) from rfl] at hT hD
    split at h
    · rename_i hc
      rw [if_pos hc]
      split at h
      · rename_i he
        rw [hT3, if_pos he]
      · exact Option.noConfusion h
    · rename_i hc
      rw [if_neg hc, hT, hD]
      split at h
      · rename_i he
        rw [if_pos he]
      · rename_i hne
        rw [if_neg hne]
        rcases hd : dotTail ((c :: cs3).dropWhile isPyDigit) with _ | p <;> rw [hd] at h
        · rw [dotTail_append_none hd hw]
          rfl
        · exact Option.noConfusion h

lemma matchFloat_append {r t rest : List Char} (h : matchFloat r = some (t, []))
    (hw : wsHead rest = true) : matchFloat (r ++ rest) = some (t, rest) := by
  unfold matchFloat at h ⊢
  rcases r with _ | ⟨c, cs1⟩
  · exact Option.noConfusion h
  · rw [List.cons_append]
    dsimp only at h ⊢
    split at h
    · rename_i hc
      rw [if_pos hc]
      rcases hb : floatBody cs1 with _ | ⟨t1, r1⟩ <;> rw [hb] at h
      · exact Option.noConfusion h
      · simp only [Option.map_some', Option.some.injEq, Prod.mk.injEq] at h
        obtain ⟨rfl, hr1⟩ := h
        subst hr1
        rw [floatBody_append hb hw]
        rfl
    · split at h
      · rename_i hc hc2
        rw [if_neg hc, if_pos hc2]
        rcases hb : floatBody cs1 with _ | ⟨t1, r1⟩ <;> rw [hb] at h
        · exact Option.noConfusion h
        · simp only [Option.map_some', Option.some.injEq, Prod.mk.injEq] at h
          obtain ⟨rfl, hr1⟩ := h
          subst hr1
          rw [floatBody_append hb hw]
          rfl
      · rename_i hc hc2
        rw [if_neg hc, if_neg hc2]
        exact floatBody_append h hw

lemma matchFloat_append_none {r rest : List Char} (h : matchFloat r = none)
    (hw : wsHead rest = true) : matchFloat (r ++ rest) = none := by
  rcases r with _ | ⟨c, cs1⟩
  · simpa using matchFloat_ws_none hw
  · unfold matchFloat at h ⊢
    rw [List.cons_append]
    dsimp only at h ⊢
    split at h
    · rename_i hc
      rw [if_pos hc]
      rcases hb : floatBody cs1 with _ | p <;> rw [hb] at h
      · rw [floatBody_append_none hb hw]
        rfl
      · exact Option.noConfusion h
    · split at h
      · rename_i hc hc2
        rw [if_neg hc, if_pos hc2]
        rcases hb : floatBody cs1 with _ | p <;> rw [hb] at h
        · rw [floatBody_append_none hb hw]
          rfl
        · exact Option.noConfusion h
      · rename_i hc hc2
        rw [if_neg hc, if_neg hc2]
        exact floatBody_append_none h hw

lemma matchRect_append {r : List Char} {g : List Char × List Char × List Char × List Char}
    {t rest : List Char} (h : matchRect r = some (g, t, []))
    (hw : wsHead rest = true) : matchRect (r ++ rest) = some (g, t, rest) := by
  unfold matchRect at h ⊢
  rcases e1 : matchSignedInt r with _ | ⟨l1, cs1⟩ <;> rw [e1] at h
  · exact Option.noConfusion h
  · rw [matchSignedInt_append e1 hw]
    dsimp only at h ⊢
    rcases cs1 with _ | ⟨c1, cs2⟩
    · exact Option.noConfusion h
    · rw [List.cons_append]
      dsimp only at h ⊢
      split at h
      · rename_i hc1
        rw [if_pos hc1]
        rcases e2 : matchSignedInt cs2 with _ | ⟨l2, cs3⟩ <;> rw [e2] at h
        · exact Option.noConfusion h
        · rw [matchSignedInt_append e2 hw]
          dsimp only at h ⊢
          rcases cs3 with _ | ⟨c2, cs4⟩
          · exact Option.noConfusion h
          · rw [List.cons_append]
            dsimp only at h ⊢
            split at h
            · rename_i hc2
              rw [if_pos hc2]
              rcases e3 : matchSignedInt cs4 with _ | ⟨l3, cs5⟩ <;> rw [e3] at h
              · exact Option.noConfusion h
              · rw [matchSignedInt_append e3 hw]
                dsimp only at h ⊢
                rcases cs5 with _ | ⟨c3, cs6⟩
                · exact Option.noConfusion h
                · rw [List.cons_append]
                  dsimp only at h ⊢
                  split at h
                  · rename_i hc3
                    rw [if_pos hc3]
                    rcases e4 : matchSignedInt cs6 with _ | ⟨l4, cs7⟩ <;> rw [e4] at h
                    · exact Option.noConfusion h
                    · rw [matchSignedInt_append e4 hw]
                      dsimp only at h ⊢
                      simp only [Option.some.injEq, Prod.mk.injEq] at h
                      obtain ⟨hg, ht, hc7⟩ := h
                      subst hg
                      subst ht
                      subst hc7
                      rfl
                  · exact Option.noConfusion h
            · exact Option.noConfusion h
      · exact Option.noConfusion h

lemma matchRect_append_none {r rest : List Char} (h : matchRect r = none)
    (hw : wsHead rest = true) : matchRect (r ++ rest) = none := by
  unfold matchRect at h ⊢
  rcases e1 : matchSignedInt r with _ | ⟨l1, cs1⟩ <;> rw [e1] at h
  · rw [matchSignedInt_append_none e1 hw]
  · rw [matchSignedInt_append e1 hw]
    dsimp only at h ⊢
    rcases cs1 with _ | ⟨c1, cs2⟩
    · rw [List.nil_append]
      rcases rest with _ | ⟨w, rt⟩
      · exact absurd hw (by simp [wsHead])
      · dsimp only
        rw [ws_beq_false hw (by decide)]
        rfl
    · rw [List.cons_append]
      dsimp only at h ⊢
      split at h
      · rename_i hc1
        rw [if_pos hc1]
        rcases e2 : matchSignedInt cs2 with _ | ⟨l2, cs3⟩ <;> rw [e2] at h
        · rw [matchSignedInt_append_none e2 hw]
        · rw [matchSignedInt_append e2 hw]
          dsimp only at h ⊢
          rcases cs3 with _ | ⟨c2, cs4⟩
          · rw [List.nil_append]
            rcases rest with _ | ⟨w, rt⟩
            · exact absurd hw (by simp [wsHead])
            · dsimp only
              rw [ws_beq_false hw (by decide)]
              rfl
          · rw [List.cons_append]
            dsimp only at h ⊢
            split at h
            · rename_i hc2
              rw [if_pos hc2]
              rcases e3 : matchSignedInt cs4 with _ | ⟨l3, cs5⟩ <;> rw [e3] at h
              · rw [matchSignedInt_append_none e3 hw]
              · rw [matchSignedInt_append e3 hw]
                dsimp only at h ⊢
                rcases cs5 with _ | ⟨c3, cs6⟩
                · rw [List.nil_append]
                  rcases rest with _ | ⟨w, rt⟩
                  · exact absurd hw (by simp [wsHead])
                  · dsimp only
                    rw [ws_beq_false hw (by decide)]
                    rfl
                · rw [List.cons_append]
                  dsimp only at h ⊢
                  split at h
                  · rename_i hc3
                    rw [if_pos hc3]
                    rcases e4 : matchSignedInt cs6 with _ | ⟨l4, cs7⟩ <;> rw [e4] at h
                    · rw [matchSignedInt_append_none e4 hw]
                    · exact Option.noConfusion h
                  · rename_i hc3
                    rw [if_neg hc3]
            · rename_i hc2
              rw [if_neg hc2]
      · rename_i hc1
        rw [if_neg hc1]

lemma matchBackref_append {r t rest : List Char} (h : matchBackref r = some (t, []))
    (hw : wsHead rest = true) : matchBackref (r ++ rest) = some (t, rest) := by
  unfold matchBackref at h ⊢
  rcases r with _ | ⟨c, cs1⟩
  · exact Option.noConfusion h
  · rw [List.cons_append]
    dsimp only at h ⊢
    split at h
    · rename_i hc
      rw [if_pos hc]
      rcases hu : matchUInt cs1 with _ | ⟨t1, rem1⟩ <;> rw [hu] at h
      · exact Option.noConfusion h
      · simp only [Option.map_some', Option.some.injEq, Prod.mk.injEq] at h
        obtain ⟨rfl, hrem⟩ := h
        subst hrem
        rw [matchUInt_append hu hw]
        rfl
    · exact Option.noConfusion h

lemma matchBackref_append_none {r rest : List Char} (h : matchBackref r = none)
    (hw : wsHead rest = true) : matchBackref (r ++ rest) = none := by
  rcases r with _ | ⟨c, cs1⟩
  · simpa using matchBackref_ws_none hw
  · unfold matchBackref at h ⊢
    rw [List.cons_append]
    dsimp only at h ⊢
    split at h
    · rename_i hc
      rw [if_pos hc]
      rcases hu : matchUInt cs1 with _ | p <;> rw [hu] at h
      · rw [matchUInt_append_none hu hw]
        rfl
      · exact Option.noConfusion h
    · rename_i hc
      rw [if_neg hc]

lemma matchStringVal_append {r t rest : List Char} (h : matchStringVal r = some (t, [])) :
    matchStringVal (r ++ rest) = some (t, rest) := by
  unfold matchStringVal at h ⊢
  rcases r with _ | ⟨c, cs1⟩
  · exact Option.noConfusion h
  · rw [List.cons_append]
    dsimp only at h ⊢
    split at h
    · rename_i hc
      rw [if_pos hc]
      rcases hd : cs1.dropWhile (fun x => x != '"') with _ | ⟨d0, drest⟩ <;> rw [hd] at h
      · exact Option.noConfusion h
      · simp only [Option.some.injEq, Prod.mk.injEq] at h
        obtain ⟨rfl, hdr⟩ := h
        subst hdr
        obtain ⟨hT, hD⟩ := takeWhile_append_stop (fun x => x != '"') cs1 rest (by rw [hd]; simp)
        rw [hT, hD, hd]
        rfl
    · exact Option.noConfusion h

lemma matchStringVal_head_none {c : Char} {cs1 rest : List Char}
    (hc : (c == '"') = false) : matchStringVal ((c :: cs1) ++ rest) = none := by
  unfold matchStringVal
  rw [List.cons_append]
  dsimp only
  rw [hc]
  rfl

lemma matchWord_append {r t rest : List Char} (h : matchWord r = some (t, []))
    (hw : wsHead rest = true) : matchWord (r ++ rest) = some (t, rest) := by
  unfold matchWord at h ⊢
  obtain ⟨hT, hD⟩ :=
    takeWhile_append_not (fun x => !isPySpace x) r (wsHead_not_nonspace hw)
  rw [hT, hD]
  split at h
  · exact Option.noConfusion h
  · rename_i hne
    simp only [Option.some.injEq, Prod.mk.injEq] at h
    obtain ⟨rfl, hdrop⟩ := h
    rw [if_neg hne, hdrop]
    rfl

/-- Does the text begin with a double quote? -/
def headQuote : List Char → Bool
  | [] => false
  | c :: _ => c == '"'

/-- On a whitespace-free token remainder, `member_text` matching commutes
with appending whitespace-headed text: the failed alternatives keep
failing and the winner consumes exactly the token, provided the
quote-hazard (a word capture that begins with a double quote) is ruled
out. -/
lemma memberTextMatch_append {r : List Char} {g : MemberGroups} {rest : List Char}
    (h : memberTextMatch r = some (g, []))
    (hqs : (!(g.word_value.isSome && headQuote g.member_text)) = true)
    (hw : wsHead rest = true) :
    memberTextMatch (r ++ rest) = some (g, rest) := by
  unfold memberTextMatch at h ⊢
  rcases hf : matchFloat r with _ | ⟨t, rem⟩ <;> rw [hf] at h
  · rw [matchFloat_append_none hf hw]
    rcases hr : matchRect r with _ | ⟨g4, t, rem⟩ <;> rw [hr] at h
    · rw [matchRect_append_none hr hw]
      rcases hi : matchSignedInt r with _ | ⟨t, rem⟩ <;> rw [hi] at h
      · rw [matchSignedInt_append_none hi hw]
        rcases hb : matchBackref r with _ | ⟨t, rem⟩ <;> rw [hb] at h
        · rw [matchBackref_append_none hb hw]
          rcases hs : matchStringVal r with _ | ⟨t, rem⟩ <;> rw [hs] at h
          · rcases hwd : matchWord r with _ | ⟨t, rem⟩ <;> rw [hwd] at h
            · exact Option.noConfusion h
            · simp only [Option.some.injEq, Prod.mk.injEq] at h
              obtain ⟨rfl, hrem⟩ := h
              subst hrem
              have hnil := matchWord_ne_nil hwd
              have hhq : headQuote t = false := by
                simpa [headQuote] using hqs
              have hstr : matchStringVal (r ++ rest) = none := by
                rcases r with _ | ⟨c, cs1⟩
                · exact absurd hwd (by simp [matchWord])
                · have ht : (c :: cs1).takeWhile (fun x => !isPySpace x) = t := by
                    unfold matchWord at hwd
                    split at hwd
                    · exact Option.noConfusion hwd
                    · simp only [Option.some.injEq, Prod.mk.injEq] at hwd
                      exact hwd.1
                  rw [List.takeWhile_cons] at ht
                  rcases hsp : (!isPySpace c) with _ | _
                  · rw [hsp] at ht
                    simp only [Bool.false_eq_true, if_false] at ht
                    exact absurd ht.symm hnil
                  · rw [hsp] at ht
                    simp only [if_pos rfl] at ht
                    refine matchStringVal_head_none ?_
                    rw [← ht] at hhq
                    simpa [headQuote] using hhq
              rw [hstr, matchWord_append hwd hw]
          · simp only [Option.some.injEq, Prod.mk.injEq] at h
            obtain ⟨rfl, hrem⟩ := h
            subst hrem
            rw [matchStringVal_append hs]
        · simp only [Option.some.injEq, Prod.mk.injEq] at h
          obtain ⟨rfl, hrem⟩ := h
          subst hrem
          rw [matchBackref_append hb hw]
      · simp only [Option.some.injEq, Prod.mk.injEq] at h
        obtain ⟨rfl, hrem⟩ := h
        subst hrem
        rw [matchSignedInt_append hi hw]
        rfl
    · rcases g4 with ⟨a, b, c, d⟩
      simp only [Option.some.injEq, Prod.mk.injEq] at h
      obtain ⟨rfl, hrem⟩ := h
      subst hrem
      rw [matchRect_append hr hw]
  · simp only [Option.some.injEq, Prod.mk.injEq] at h
    obtain ⟨rfl, hrem⟩ := h
    subst hrem
    rw [matchFloat_append hf hw]

lemma tCands_append : ∀ (xs base : List Char) {rest : List Char}, wsHead rest = true →
    tCands base (xs ++ rest) = (tCands base xs).map (fun p => (p.1, p.2 ++ rest)) := by
  intro xs
  induction xs with
  | nil =>
    intro base rest hw
    rcases rest with _ | ⟨w, rt⟩
    · exact absurd hw (by simp [wsHead])
    · rw [List.nil_append]
      unfold tCands
      rw [ws_beq_false hw (by decide), ws_beq_false hw (by decide),
        ws_beq_false hw (by decide)]
      simp
  | cons c cs ih =>
    intro base rest hw
    rw [List.cons_append]
    unfold tCands
    rcases hc : (c == 'X' || c == 'Y' || c == 'Z') with _ | _
    · simp
    · simp only [if_pos rfl, List.map_append, List.map_cons, List.map_nil]
      rw [ih (base ++ [c]) hw]
      simp

lemma tCands_rest_suffix : ∀ (xs base q r : List Char), (q, r) ∈ tCands base xs →
    r <:+ xs := by
  intro xs
  induction xs with
  | nil =>
    intro base q r h
    simp only [tCands, List.mem_singleton, Prod.mk.injEq] at h
    rw [h.2]
  | cons c cs ih =>
    intro base q r h
    unfold tCands at h
    split at h
    · rcases List.mem_append.mp h with h2 | h2
      · exact (ih (base ++ [c]) q r h2).trans (List.suffix_cons c cs)
      · simp only [List.mem_singleton, Prod.mk.injEq] at h2
        rw [h2.2]
    · simp only [List.mem_singleton, Prod.mk.injEq] at h
      rw [h.2]

lemma qualCandidates_rest_suffix : ∀ (cs : List Char) (q r : List Char),
    (q, r) ∈ qualCandidates cs → r <:+ cs := by
  intro cs q r h
  unfold qualCandidates at h
  rcases cs with _ | ⟨a, tok1⟩
  · simp at h
  rcases List.mem_append.mp h with h2 | h2
  · rcases tok1 with _ | ⟨b, r1⟩
    · simp at h2
    · rcases List.mem_append.mp h2 with h3 | h3
      · rcases List.mem_append.mp h3 with h4 | h4
        · rcases List.mem_append.mp h4 with h5 | h5
          · rcases List.mem_append.mp h5 with h6 | h6
            · split at h6
              · simp only [List.mem_singleton, Prod.mk.injEq] at h6
                rw [h6.2]
                exact (List.suffix_cons b r1).trans (List.suffix_cons a (b :: r1))
              · simp at h6
            · split at h6
              · simp only [List.mem_singleton, Prod.mk.injEq] at h6
                rw [h6.2]
                exact (List.suffix_cons b r1).trans (List.suffix_cons a (b :: r1))
              · simp at h6
          · split at h5
            · exact ((tCands_rest_suffix r1 [a, b] q r h5).trans
                (List.suffix_cons b r1)).trans (List.suffix_cons a (b :: r1))
            · simp at h5
        · split at h4
          · simp only [List.mem_singleton, Prod.mk.injEq] at h4
            rw [h4.2]
            exact (List.suffix_cons b r1).trans (List.suffix_cons a (b :: r1))
          · simp at h4
      · rcases r1 with _ | ⟨v, r2⟩
        · simp at h3
        · split at h3
          · rename_i r3 v2 r4 hvr
            injection hvr with hv hr
            subst hv
            subst hr
            split at h3
            · simp only [List.mem_singleton, Prod.mk.injEq] at h3
              rw [h3.2]
              exact ((List.suffix_cons v r2).trans ((List.suffix_cons b (v :: r2)).trans
                (List.suffix_cons a (b :: v :: r2))))
            · simp at h3
          · simp at h3
  · split at h2
    · simp only [List.mem_singleton, Prod.mk.injEq] at h2
      rw [h2.2]
      exact List.suffix_cons a tok1
    · simp at h2

lemma qualCandidates_append {tok rest : List Char} (hnn : tok ≠ [])
    (hw : wsHead rest = true) :
    qualCandidates (tok ++ rest) =
      (qualCandidates tok).map (fun p => (p.1, p.2 ++ rest)) := by
  rcases tok with _ | ⟨a, tok1⟩
  · exact absurd rfl hnn
  rcases tok1 with _ | ⟨b, tok2⟩
  · rcases rest with _ | ⟨w, rt⟩
    · exact absurd hw (by simp [wsHead])
    · show qualCandidates (a :: w :: rt) = _
      unfold qualCandidates
      dsimp only
      have hwsp : isPySpace w = true := hw
      rw [show (w == 'a') = false from ws_beq_false hwsp (by decide),
        show (w == 'b') = false from ws_beq_false hwsp (by decide),
        show (w == 'c') = false from ws_beq_false hwsp (by decide),
        show (w == 'd') = false from ws_beq_false hwsp (by decide),
        show (w == 'e') = false from ws_beq_false hwsp (by decide),
        show (w == 'x') = false from ws_beq_false hwsp (by decide),
        show (w == 'y') = false from ws_beq_false hwsp (by decide),
        show (w == 'm') = false from ws_beq_false hwsp (by decide),
        show (w == 'z') = false from ws_beq_false hwsp (by decide),
        show (w == 'r') = false from ws_beq_false hwsp (by decide),
        show (w == 's') = false from ws_beq_false hwsp (by decide)]
      rcases rt with _ | ⟨v, rt2⟩ <;>
        rcases hla : isPyLetter a with _ | _ <;>
          simp [hla, ws_not_letter hwsp]
  rcases tok2 with _ | ⟨c3, tok3⟩
  · rcases rest with _ | ⟨w, rt⟩
    · exact absurd hw (by simp [wsHead])
    · show qualCandidates (a :: b :: w :: rt) = _
      unfold qualCandidates
      dsimp only
      have hwsp : isPySpace w = true := hw
      have hT := tCands_append [] [a, b] hw
      rw [List.nil_append] at hT
      rw [show (w == 'v') = false from ws_beq_false hwsp (by decide), hT]
      rcases hla : isPyLetter a with _ | _ <;>
        simp [hla,
          apply_ite (List.map fun p : List Char × List Char => (p.1, p.2 ++ (w :: rt)))]
  · show qualCandidates (a :: b :: c3 :: (tok3 ++ rest)) = _
    unfold qualCandidates
    dsimp only
    have hT := tCands_append (c3 :: tok3) [a, b] hw
    rw [List.cons_append] at hT
    rw [hT]
    rcases hla : isPyLetter a with _ | _ <;>
      simp [hla, apply_ite (List.map fun p : List Char × List Char => (p.1, p.2 ++ rest))]

lemma memberTextMatch_isSome_nonspace {c : Char} {t : List Char}
    (hc : isPySpace c = false) : (memberTextMatch (c :: t)).isSome = true := by
  have hword : ∃ p, matchWord (c :: t) = some p := by
    unfold matchWord
    rw [List.takeWhile_cons, hc]
    simp
  unfold memberTextMatch
  rcases h1 : matchFloat (c :: t) with _ | p1
  · rcases h2 : matchRect (c :: t) with _ | p2
    · rcases h3 : matchSignedInt (c :: t) with _ | p3
      · rcases h4 : matchBackref (c :: t) with _ | p4
        · rcases h5 : matchStringVal (c :: t) with _ | p5
          · obtain ⟨⟨w1, w2⟩, hw6⟩ := hword
            rw [hw6]
            rfl
          · rcases p5 with ⟨x, y⟩
            rfl
        · rcases p4 with ⟨x, y⟩
          rfl
      · rcases p3 with ⟨x, y⟩
        rfl
    · rcases p2 with ⟨⟨x1, x2, x3, x4⟩, y, z⟩
      rfl
  · rcases p1 with ⟨x, y⟩
    rfl

lemma firstTextMatch_append : ∀ (cands : List (List Char × List Char))
    (q : List Char) (g : MemberGroups) (rest : List Char),
    (∀ p ∈ cands, p.2.all (fun c => !isPySpace c) = true) →
    firstTextMatch cands = some (q, g, []) →
    (!(g.word_value.isSome && headQuote g.member_text)) = true →
    wsHead rest = true →
    firstTextMatch (cands.map (fun p => (p.1, p.2 ++ rest))) = some (q, g, rest) := by
  intro cands
  induction cands with
  | nil =>
    intro q g rest hall h hqs hw
    exact Option.noConfusion h
  | cons hd tl ih =>
    intro q g rest hall h hqs hw
    obtain ⟨q0, r0⟩ := hd
    unfold firstTextMatch at h
    rcases hm : memberTextMatch r0 with _ | ⟨g2, rem2⟩ <;> rw [hm] at h
    · have hr0 : r0 = [] := by
        rcases hr : r0 with _ | ⟨c, t⟩
        · rfl
        · have hcns : isPySpace c = false := by
            have h1 := hall (q0, r0) (List.mem_cons_self _ _)
            rw [hr] at h1
            have h2 : ((c :: t).all fun x => !isPySpace x) = true := h1
            have h3 := List.all_eq_true.mp h2 c (List.mem_cons_self c t)
            simpa using h3
          have h4 := @memberTextMatch_isSome_nonspace c t hcns
          rw [← hr, hm] at h4
          exact Bool.noConfusion h4
      subst hr0
      rw [List.map_cons]
      unfold firstTextMatch
      rw [List.nil_append, memberTextMatch_ws_none hw]
      exact ih q g rest (fun p hp => hall p (List.mem_cons_of_mem _ hp)) h hqs hw
    · simp only [Option.some.injEq, Prod.mk.injEq] at h
      obtain ⟨rfl, rfl, hrem⟩ := h
      subst hrem
      rw [List.map_cons]
      unfold firstTextMatch
      rw [memberTextMatch_append hm hqs hw]

lemma dropWhile_ws_of_nonspace_head {tok : List Char}
    (hall : tok.all (fun c => !isPySpace c) = true) :
    tok.dropWhile isPySpace = tok := by
  rcases tok with _ | ⟨c, t⟩
  · rfl
  · rw [List.dropWhile_cons]
    have hc : isPySpace c = false := by
      have h1 := List.all_eq_true.mp hall c (List.mem_cons_self c t)
      simpa using h1
    rw [hc]
    simp

lemma regexMatchAt_cons_ws {c : Char} (hc : isPySpace c = true) (cs : List Char) :
    regexMatchAt (c :: cs) = regexMatchAt cs := by
  unfold regexMatchAt
  rw [List.dropWhile_cons, hc]
  simp

/-- An anchored match that consumes a whole whitespace-free token commutes
with appending whitespace-headed text: the same qualifier and groups match
and the appended text is the leftover. -/
lemma regexMatchAt_append {tok q : List Char} {g : MemberGroups} {rest : List Char}
    (hall : tok.all (fun c => !isPySpace c) = true)
    (h : regexMatchAt tok = some (q, g, []))
    (hqs : (!(g.word_value.isSome && headQuote g.member_text)) = true)
    (hw : wsHead rest = true) :
    regexMatchAt (tok ++ rest) = some (q, g, rest) := by
  have hnn : tok ≠ [] := by
    intro hnil
    rw [hnil, show regexMatchAt ([] : List Char) = none from rfl] at h
    exact Option.noConfusion h
  unfold regexMatchAt at h ⊢
  rw [dropWhile_ws_of_nonspace_head hall] at h
  have hdw : ((tok ++ rest).dropWhile isPySpace) = tok ++ rest := by
    rcases tok with _ | ⟨c, t⟩
    · exact absurd rfl hnn
    · rw [List.cons_append, List.dropWhile_cons]
      have hc : isPySpace c = false := by
        have h1 := List.all_eq_true.mp hall c (List.mem_cons_self c t)
        simpa using h1
      rw [hc]
      simp
  rw [hdw, qualCandidates_append hnn hw]
  refine firstTextMatch_append (qualCandidates tok) q g rest ?_ h hqs hw
  intro p hp
  obtain ⟨q2, r2⟩ := p
  have hsuf := qualCandidates_rest_suffix tok q2 r2 hp
  rw [List.all_eq_true] at hall ⊢
  intro x hx
  exact hall x (hsuf.subset hx)

/-- A float token that Python 2's `str(float(...))` prints back unchanged
(`str` on a float is `%.12g`, plus a trailing `.0` when the result would
look integral): an optional `-`, a leading-zero-free integer part, a
fractional part that is exactly `0` or ends in a nonzero digit, at most 12
digits in all, magnitude inside `%g`'s fixed-notation window (leading
exponent in `[-4, 11]`), and the value zero unsigned.  The test is
conservative but sound: a decimal of at most 12 significant digits is
recovered exactly when its nearest IEEE double is rounded back to 12
significant digits (the classic 15-digit round-trip bound), so every
accepted token satisfies `str(float(t)) = t`; rejected shapes such as
`1.50`, `+1.5`, `1.`, `.5`, `00.5` or 13-digit tokens are exactly the ones
the program re-renders differently or that `%g` may reformat. -/
def floatTokCanonB (t : List Char) : Bool :=
  match t with
  | [] => false
  | c :: t1 =>
    let neg : Bool := c == '-'
    let body := if neg then t1 else c :: t1
    let ip := body.takeWhile isPyDigit
    match body.dropWhile isPyDigit with
    | '.' :: fr =>
      (!ip.isEmpty) &&
      (ip == ['0'] || ip.headD '0' != '0') &&
      fr.all isPyDigit &&
      (fr == ['0'] || ((!fr.isEmpty) && fr.getLastD '0' != '0')) &&
      decide (ip.length + fr.length ≤ 12) &&
      (ip != ['0'] || fr == ['0'] ||
        decide ((fr.takeWhile (fun d => d == '0')).length ≤ 3)) &&
      (!(neg && ip == ['0'] && fr == ['0']))
    | _ => false

/-- A canonically formatted member token: nonempty, whitespace-free, matched
in full by one anchored attempt of `pto_member_re`, not subject to the
word/string quote hazard, with any `float_value` capture printed back
unchanged by Python's `str(float(...))` (see `floatTokCanonB`), accepted by
the member builder, and re-rendered by `pto_member.__str__` to exactly the
original characters. -/
def canonicalTok (tok : List Char) : Bool :=
  !tok.isEmpty &&
  tok.all (fun c => !isPySpace c) &&
  (match regexMatchAt tok with
   | some (q, g, rest) =>
     rest.isEmpty && (!(g.word_value.isSome && headQuote g.member_text)) &&
     (match g.float_value with
      | some t => floatTokCanonB t
      | none => true) &&
     (match buildMember q g with
      | some m => memberStr m == tok
      | none => false)
   | none => false)

lemma canonicalTok_spec {tok : List Char} (h : canonicalTok tok = true) :
    tok ≠ [] ∧ tok.all (fun c => !isPySpace c) = true ∧
    ∃ q g m, regexMatchAt tok = some (q, g, []) ∧
      (!(g.word_value.isSome && headQuote g.member_text)) = true ∧
      buildMember q g = some m ∧ memberStr m = tok := by
  unfold canonicalTok at h
  simp only [Bool.and_eq_true] at h
  obtain ⟨⟨h1, h2⟩, h3⟩ := h
  refine ⟨?_, h2, ?_⟩
  · rcases tok with _ | _
    · exact absurd h1 (by decide)
    · simp
  · rcases hm : regexMatchAt tok with _ | ⟨q, g, rest⟩ <;> rw [hm] at h3
    · exact Bool.noConfusion h3
    · dsimp only at h3
      simp only [Bool.and_eq_true] at h3
      obtain ⟨⟨⟨hrest, hqs⟩, hfc⟩, h4⟩ := h3
      have hrest2 : rest = [] := by
        rcases rest with _ | _
        · rfl
        · exact Bool.noConfusion hrest
      subst hrest2
      rcases hb : buildMember q g with _ | m <;> rw [hb] at h4
      · exact Bool.noConfusion h4
      · exact ⟨q, g, m, rfl, hqs, hb, eq_of_beq h4⟩

/-- `' ' + tok` for each token, concatenated: the body shape both of a
canonically spaced source line after its header and of the structural
re-render `pto_line.__str__` produces. -/
def spacedToks : List (List Char) → List Char
  | [] => []
  | t :: ts => ' ' :: (t ++ spacedToks ts)

lemma wsHead_spacedToks (toks : List (List Char)) :
    wsHead (spacedToks toks ++ [Char.ofNat 10]) = true := by
  rcases toks with _ | ⟨t, ts⟩
  · decide
  · show wsHead (' ' :: (t ++ spacedToks ts) ++ [Char.ofNat 10]) = true
    rw [List.cons_append]
    rfl

/-- Scanning a newline-terminated sequence of canonically spaced canonical
tokens yields exactly one member per token, and each member re-renders to
its token. -/
lemma finditerGo_spacedToks : ∀ (toks : List (List Char)),
    toks.all canonicalTok = true →
    ∀ (fuel : Nat), (spacedToks toks ++ [Char.ofNat 10]).length ≤ fuel →
    ∃ ms, finditerGo fuel (spacedToks toks ++ [Char.ofNat 10]) = .ok ms ∧
      ms.map memberStr = toks := by
  intro toks
  induction toks with
  | nil =>
    intro _ fuel hf
    rcases fuel with _ | f
    · simp [spacedToks] at hf
    · refine ⟨[], ?_, rfl⟩
      have h0 : spacedToks [] ++ [Char.ofNat 10] = [Char.ofNat 10] := rfl
      rw [h0]
      have hr : regexMatchAt [Char.ofNat 10] = none := by decide
      rw [finditerGo, hr]
      dsimp only
      exact finditerGo_nil f
  | cons tok toks ih =>
    intro hall fuel hf
    simp only [List.all_cons, Bool.and_eq_true] at hall
    obtain ⟨htok, hall2⟩ := hall
    obtain ⟨hne, hns, q, g, m, hmatch, hqs, hbuild, hstr⟩ := canonicalTok_spec htok
    have hw : wsHead (spacedToks toks ++ [Char.ofNat 10]) = true := wsHead_spacedToks toks
    rcases fuel with _ | f
    · exfalso
      simp only [spacedToks, List.cons_append, List.length_cons] at hf
      omega
    · have hlist : spacedToks (tok :: toks) ++ [Char.ofNat 10] =
          ' ' :: (tok ++ (spacedToks toks ++ [Char.ofNat 10])) := by
        simp [spacedToks]
      have hf2 : (spacedToks toks ++ [Char.ofNat 10]).length ≤ f := by
        simp only [spacedToks, List.cons_append, List.length_cons, List.length_append] at hf ⊢
        omega
      have hsp : isPySpace ' ' = true := by decide
      have hra : regexMatchAt (' ' :: (tok ++ (spacedToks toks ++ [Char.ofNat 10]))) =
          some (q, g, spacedToks toks ++ [Char.ofNat 10]) := by
        rw [regexMatchAt_cons_ws hsp]
        exact regexMatchAt_append hns hmatch hqs hw
      obtain ⟨ms, hms, hmap⟩ := ih hall2 f hf2
      refine ⟨m :: ms, ?_, by simp [hmap, hstr]⟩
      rw [hlist, finditerGo, hra]
      dsimp only
      rw [hbuild]
      dsimp only
      rw [hms]
      rfl

/-- Decompose a canonically spaced line body: blocks of one space followed
by a maximal whitespace-free token, closed by a single trailing newline. -/
def parseToks : Nat → List Char → Option (List (List Char))
  | 0, _ => none
  | fuel + 1, cs =>
    match cs with
    | [] => none
    | c :: cs1 =>
      if c == Char.ofNat 10 then (if cs1.isEmpty then some [] else none)
      else if c == ' ' then
        (if (cs1.takeWhile (fun x => !isPySpace x)).isEmpty then none
         else (parseToks fuel (cs1.dropWhile (fun x => !isPySpace x))).map
           (fun ts => cs1.takeWhile (fun x => !isPySpace x) :: ts))
      else none

lemma parseToks_spec : ∀ (fuel : Nat) (body : List Char) (toks : List (List Char)),
    parseToks fuel body = some toks → body = spacedToks toks ++ [Char.ofNat 10] := by
  intro fuel
  induction fuel with
  | zero => intro body toks h; exact Option.noConfusion h
  | succ f ih =>
    intro body toks h
    rcases body with _ | ⟨c, cs1⟩
    · rw [parseToks.eq_def] at h
      dsimp only at h
      exact Option.noConfusion h
    · rw [parseToks.eq_def] at h
      dsimp only at h
      split at h
      · rename_i hceq
        split at h
        · rename_i hemp
          obtain rfl : cs1 = [] := by
            rcases cs1 with _ | _
            · rfl
            · exact Bool.noConfusion hemp
          obtain rfl : toks = [] := by
            injection h with h2
            exact h2.symm
          obtain rfl : c = Char.ofNat 10 := eq_of_beq hceq
          rfl
        · exact Option.noConfusion h
      · split at h
        · rename_i hsp
          split at h
          · exact Option.noConfusion h
          · rename_i hne
            rcases hp : parseToks f (cs1.dropWhile (fun x => !isPySpace x)) with _ | ts <;>
              rw [hp] at h
            · exact Option.noConfusion h
            · dsimp only [Option.map] at h
              injection h with h2
              obtain rfl := h2.symm
              obtain rfl : c = ' ' := eq_of_beq hsp
              have hbody := ih _ ts hp
              have hcs1 : cs1 = cs1.takeWhile (fun x => !isPySpace x) ++
                  cs1.dropWhile (fun x => !isPySpace x) :=
                (List.takeWhile_append_dropWhile _ _).symm
              conv_lhs => rw [hcs1, hbody]
              simp [spacedToks]
        · exact Option.noConfusion h

/-- A canonical generic data line: an accepted one-letter header followed by
canonically spaced canonical member tokens and a trailing newline. -/
def canonicalDataLineB (line : List Char) : Bool :=
  match line with
  | [] => false
  | c :: body =>
    string_letters.contains c &&
    (match parseToks body.length body with
     | some toks => toks.all canonicalTok
     | none => false)

/-- A comment line that stays a plain comment under extension scanning: it
starts with `#` and triggers none of the three extension dispatches. -/
def plainCommentB (line : List Char) : Bool :=
  match line with
  | [] => false
  | c :: _ =>
    c == '#' && !("#-hugin".data.isPrefixOf line) &&
    !(huginOptionHeader line).isSome && !("#-imgfile".data.isPrefixOf line)

lemma canonicalDataLineB_spec {line : List Char} (h : canonicalDataLineB line = true) :
    ∃ c toks, line = c :: (spacedToks toks ++ [Char.ofNat 10]) ∧
      string_letters.contains c = true ∧ toks.all canonicalTok = true := by
  unfold canonicalDataLineB at h
  rcases line with _ | ⟨c, body⟩
  · exact Bool.noConfusion h
  · dsimp only at h
    simp only [Bool.and_eq_true] at h
    obtain ⟨h1, h2⟩ := h
    rcases hp : parseToks body.length body with _ | toks <;> rw [hp] at h2
    · exact Bool.noConfusion h2
    · exact ⟨c, toks, by rw [parseToks_spec _ _ _ hp], h1, h2⟩

lemma plainCommentB_spec {line : List Char} (h : plainCommentB line = true) :
    ∃ body, line = '#' :: body ∧
      ("#-hugin".data.isPrefixOf line) = false ∧
      (huginOptionHeader line).isSome = false ∧
      ("#-imgfile".data.isPrefixOf line) = false := by
  unfold plainCommentB at h
  rcases line with _ | ⟨c, body⟩
  · exact Bool.noConfusion h
  · dsimp only at h
    simp only [Bool.and_eq_true] at h
    obtain ⟨⟨⟨h1, h2⟩, h3⟩, h4⟩ := h
    obtain rfl : c = '#' := eq_of_beq h1
    exact ⟨body, rfl, by simpa using h2, by simpa using h3, by simpa using h4⟩

lemma pto_line_init_canonical (c : Char) (toks : List (List Char)) (n : Nat)
    (hall : toks.all canonicalTok = true) :
    ∃ ms, pto_line_init (c :: (spacedToks toks ++ [Char.ofNat 10])) n [c] true =
        .ok ⟨c :: (spacedToks toks ++ [Char.ofNat 10]), n, [c], some ms, []⟩ ∧
      ms.map memberStr = toks := by
  obtain ⟨ms, hms, hmap⟩ :=
    finditerGo_spacedToks toks hall (spacedToks toks ++ [Char.ofNat 10]).length le_rfl
  refine ⟨ms, ?_, hmap⟩
  unfold pto_line_init
  rw [if_pos rfl]
  unfold finditerMembers
  have hdrop : (c :: (spacedToks toks ++ [Char.ofNat 10])).drop
      ([c] : List Char).length = spacedToks toks ++ [Char.ofNat 10] := rfl
  rw [hdrop, hms]
  rfl

lemma spacedToks_foldr (ms : List pto_member) :
    ((ms.map (fun m => ' ' :: memberStr m)).foldr (· ++ ·) []) =
      spacedToks (ms.map memberStr) := by
  induction ms with
  | nil => rfl
  | cons m ms2 ih => simp [spacedToks, ih]

lemma pto_line_pto_canonical {c : Char} {toks : List (List Char)} {ms : List pto_member}
    {n : Nat} (hmap : ms.map memberStr = toks) :
    pto_line_pto ⟨c :: (spacedToks toks ++ [Char.ofNat 10]), n, [c], some ms, []⟩ true =
      c :: (spacedToks toks ++ [Char.ofNat 10]) := by
  rcases ms with _ | ⟨m, ms2⟩
  · obtain rfl : toks = [] := by simpa using hmap.symm
    rfl
  · obtain rfl : toks = memberStr m :: ms2.map memberStr := by simpa using hmap.symm
    have ht : membersTruthy ⟨c :: (spacedToks (memberStr m :: ms2.map memberStr) ++
        [Char.ofNat 10]), n, [c], some (m :: ms2), []⟩ = true := rfl
    unfold pto_line_pto
    rw [ht, if_pos rfl]
    unfold pto_line_str
    rw [ht, if_pos rfl]
    show [c] ++ ((m :: ms2).map (fun m => ' ' :: memberStr m)).foldr (· ++ ·) [] ++
        [Char.ofNat 10] = _
    rw [spacedToks_foldr]
    simp

lemma pto_line_pto_verbatim (line : List Char) (n : Nat) (h : List Char) :
    pto_line_pto ⟨line, n, h, none, []⟩ true = line := rfl

/-- Classifying a list of canonical data lines and plain comments succeeds,
and rendering the resulting lines in order (auxiliary output on)
concatenates back to the original lines. -/
lemma scanLoop_roundtrip : ∀ (ls : List (List Char)) (n : Nat),
    (∀ l ∈ ls, canonicalDataLineB l = true ∨ plainCommentB l = true) →
    ∃ seq, scanLoop string_letters true ls n = .ok seq ∧
      (seq.map (fun l => pto_line_pto l true)).foldr (· ++ ·) [] =
        ls.foldr (· ++ ·) [] := by
  intro ls
  induction ls with
  | nil => intro n _; exact ⟨[], rfl, rfl⟩
  | cons line rest ih =>
    intro n hall
    obtain ⟨seq, hseq, hconcat⟩ := ih (n + 1) (fun l hl => hall l (List.mem_cons_of_mem _ hl))
    rcases hall line (List.mem_cons_self _ _) with hd | hcomment
    · obtain ⟨c, toks, rfl, hcontains, htoks⟩ := canonicalDataLineB_spec hd
      obtain ⟨ms, hinit, hmap⟩ := pto_line_init_canonical c toks n htoks
      refine ⟨⟨c :: (spacedToks toks ++ [Char.ofNat 10]), n, [c], some ms, []⟩ :: seq, ?_, ?_⟩
      · rw [scanLoop]
        dsimp only
        rw [hcontains, if_pos rfl, hinit]
        dsimp only
        rw [hseq]
        rfl
      · simp only [List.map_cons, List.foldr_cons]
        rw [pto_line_pto_canonical hmap, hconcat]
    · obtain ⟨body, rfl, hnh, hno, hni⟩ := plainCommentB_spec hcomment
      refine ⟨⟨'#' :: body, n, ['#'], none, []⟩ :: seq, ?_, ?_⟩
      · rw [scanLoop]
        dsimp only
        rw [if_neg (by decide), if_pos (by decide), if_pos rfl,
          if_neg (by simp [hnh]), if_neg (by simp [hno]), if_neg (by simp [hni]), hseq]
        rfl
      · simp only [List.map_cons, List.foldr_cons]
        rw [pto_line_pto_verbatim, hconcat]

lemma pySplitAux_concat : ∀ (cs acc : List Char),
    (pySplitAux cs acc).foldr (· ++ ·) [] = acc.reverse ++ cs := by
  intro cs
  induction cs with
  | nil =>
    intro acc
    rw [pySplitAux.eq_def]
    dsimp only
    split
    · rename_i hemp
      obtain rfl : acc = [] := by
        rcases acc with _ | _
        · rfl
        · exact Bool.noConfusion hemp
      rfl
    · simp
  | cons c cs2 ih =>
    intro acc
    rw [pySplitAux.eq_def]
    split
    · rename_i a b d heq
      exact List.noConfusion heq
    · rename_i a b d cs3 heq
      injection heq with h1 h2
      subst h1
      subst h2
      simp [ih]
    · rename_i a b d c2 cs3 hne heq
      injection heq with h1 h2
      subst h1
      subst h2
      rw [ih (c :: a)]
      simp
lemma pySplitLines_concat (s : List Char) :
    (pySplitLines s).foldr (· ++ ·) [] = s := by
  unfold pySplitLines
  simpa using pySplitAux_concat s []

lemma pto_line_pto_core {l l2 : pto_line} (h : lineCore l = lineCore l2) (b : Bool) :
    pto_line_pto l b = pto_line_pto l2 b := by
  obtain ⟨s1, n1, h1, m1, a1⟩ := l
  obtain ⟨s2, n2, h2, m2, a2⟩ := l2
  simp only [lineCore, Prod.mk.injEq] at h
  obtain ⟨rfl, rfl, rfl⟩ := h
  rfl

lemma map_pto_of_core : ∀ (l1 l2 : List pto_line),
    l1.map lineCore = l2.map lineCore → ∀ (b : Bool),
    l1.map (fun l => pto_line_pto l b) = l2.map (fun l => pto_line_pto l b) := by
  intro l1
  induction l1 with
  | nil =>
    intro l2 h b
    rcases l2 with _ | _
    · rfl
    · exact absurd h (by simp)
  | cons x t ih =>
    intro l2 h b
    rcases l2 with _ | ⟨y, t2⟩
    · exact absurd h (by simp)
    · simp only [List.map_cons, List.cons.injEq] at h ⊢
      exact ⟨pto_line_pto_core h.1 b, ih t2 h.2 b⟩

/-- `make_member_access` only adds attribute bindings; the rendered output of
the scan is unchanged. -/
lemma make_member_access_pto (s : pto_scan) (b : Bool) :
    pto_scan_pto (make_member_access s) b = pto_scan_pto s b := by
  unfold pto_scan_pto
  rw [map_pto_of_core _ _ (mma_core s) b]

/-- C2 (corrected): the round-trip holds on canonically formatted input: for
every input text all of whose physical lines are either canonical generic
data lines (an accepted one-letter header; members separated by single
spaces and the line terminated by a newline; every member token
whitespace-free, matched in full, and re-rendered identically by the member
printer — for a float capture this demands `str(float(t)) = t` via
`floatTokCanonB`, and a token classifying as a bare word must not begin
with a double quote) or plain comment lines, the default scan succeeds and
serializing the unmutated document with auxiliary content enabled
reproduces the input byte-for-byte.  (C2 as stated is refuted by
`C2_counterexample_spacing`: non-canonical spacing alone breaks byte
equality even though every line is a recognized data line and no field was
mutated.) -/
theorem C2_amended_roundtrip (input : List Char)
    (h : ∀ l ∈ pySplitLines input, canonicalDataLineB l = true ∨ plainCommentB l = true) :
    ∃ s, pto_scan_init input string_letters true true = .ok s ∧
      pto_scan_pto s true = input := by
  obtain ⟨seq, hseq, hconcat⟩ := scanLoop_roundtrip (pySplitLines input) 0 h
  refine ⟨make_member_access ⟨string_letters, true, seq, false, []⟩, ?_, ?_⟩
  · unfold pto_scan_init
    rw [hseq]
    rfl
  · rw [make_member_access_pto]
    unfold pto_scan_pto
    dsimp only
    rw [hconcat, pySplitLines_concat]

/-- The round-trip theorem applied to a concrete three-line document using a
canonical float (`f1.5`), ints, a quoted string, a rectangle, a backref and
a plain comment. -/
theorem C2_witness :
    ∃ s, pto_scan_init "p f1.5 v120 n\"ab\"\ni C10,20,30,40 a=3\n# note\n".data
        string_letters true true = .ok s ∧
      pto_scan_pto s true = "p f1.5 v120 n\"ab\"\ni C10,20,30,40 a=3\n# note\n".data :=
  C2_amended_roundtrip _ (by decide)

end ParsePto

